import Mathlib

/-!
# goggle: a Boggle solver (shallow embedding of `goggle.go`)

A Go `string` is a sequence of bytes; it is modelled as a `List Char`, one `Char` per byte
(`len` is `List.length`, `w[:k]` is `List.take k`, `+=` is `++`, `==` is equality).
Go `int` values are modelled as `Int`: the only arithmetic is `last.row+row` and
`last.col+col` in `Offset`, applied to a cell that has just passed `IsLegal`, so it stays
far from the 64-bit bounds.

Run-time panics (index out of range, `make` with a negative length) are the error
`Err.panic`; `main` blocked for ever on its `done` channel is the error `Err.deadlock`.
`main` reads the slice `answer` without synchronising with the goroutine that fills it;
the outcome of that race is a parameter of the model of `main`.  The goroutine tree of
`Wordfinder` is modelled as a recursive function that collects what a task and all of its
descendants send on the two channels; a fuel argument bounds the depth of the recursion,
and running out of it is the error `Err.fuel`.
-/

namespace Goggle

/-! ## Data model and operations of `goggle.go` -/

/-- A Go string: its sequence of bytes. -/
abbrev GoString := List Char

/-- Source: `type board [][]string`. -/
abbrev board := List (List GoString)

/-- Source: `type dictionary []string`. -/
abbrev dictionary := List GoString

/-- Source: `type cell struct { row, col int }`. -/
structure cell where
  row : Int
  col : Int
  deriving DecidableEq, Repr

/-- Source: `type path []cell`. -/
abbrev path := List cell

/-- Source: `type words []string`. -/
abbrev words := List GoString

/-- The ways a run of the model can stop without a result. -/
inductive Err where
  | panic : Err
  | fuel : Err
  | deadlock : Err
  deriving DecidableEq, Repr

/-- Go slice indexing `l[i]` with an `int` index: panics outside `0 ≤ i < len(l)`. -/
def index {α : Type} (l : List α) (i : Int) : Except Err α :=
  if i < 0 then .error .panic
  else
    match l.get? i.toNat with
    | some x => .ok x
    | none => .error .panic

/-- The loop of `Filter`, with the slice `out` built so far. -/
def Filter.loop (pfx : GoString) : List GoString → dictionary → dictionary
  | [], out => out
  | w :: rest, out =>
    if w.length ≥ pfx.length then
      if w.take pfx.length = pfx then Filter.loop pfx rest (out ++ [w])
      else if out.length > 0 then out
      else Filter.loop pfx rest out
    else Filter.loop pfx rest out

/-- Source: `func (in dictionary) Filter(prefix string) (out dictionary)`. -/
def dictionary.Filter (inp : dictionary) (pfx : GoString) : dictionary :=
  Filter.loop pfx inp []

/-- Source: `func (in path) Offset(row, col int) (out path)`; `out[len(out)-1]` panics on
an empty path.  The two sums are taken in `Int`: `Wordfinder` calls `Offset` with offsets
`-1`, `0`, `1` and only on a path that has just passed `IsLegal`, whose last cell has
`0 ≤ row < len(board)` and `0 ≤ col < len(board[0])`, so the Go `int` sums do not wrap. -/
def path.Offset (inp : path) (row col : Int) : Except Err path :=
  match inp.getLast? with
  | none => .error .panic
  | some last => .ok (inp ++ [⟨last.row + row, last.col + col⟩])

/-- Source: `func (dict dictionary) Contains(candidate string) bool`. -/
def dictionary.Contains : dictionary → GoString → Bool
  | [], _ => false
  | word :: rest, candidate =>
    if word = candidate then true else dictionary.Contains rest candidate

/-- The loop `for i:=0; i<len(path)-1; i++` of `IsLegal` over the cells before the last
one: `false` as soon as one of them equals `last`. -/
def IsLegal.loop (last : cell) : List cell → Bool
  | [] => true
  | c :: rest => if last = c then false else IsLegal.loop last rest

/-- Source: `func (board board) IsLegal(path path) bool`.  `path[len(path)-1]` panics on an
empty path; `board[0]` is only reached when `len(board) > 0`. -/
def board.IsLegal (b : board) (p : path) : Except Err Bool :=
  match p.getLast? with
  | none => .error .panic
  | some last =>
    if last.row < 0 ∨ last.row ≥ (b.length : Int) then .ok false
    else
      match index b 0 with
      | .error e => .error e
      | .ok row0 =>
        if last.col < 0 ∨ last.col ≥ (row0.length : Int) then .ok false
        else .ok (IsLegal.loop last p.dropLast)

/-- The loop `for _, c := range p { w += b[c.row][c.col] }` of `Wordfinder`, started with
the string `w` built so far. -/
def spell.loop (b : board) : List cell → GoString → Except Err GoString
  | [], w => .ok w
  | c :: rest, w =>
    match index b c.row with
    | .error e => .error e
    | .ok r =>
      match index r c.col with
      | .error e => .error e
      | .ok s => spell.loop b rest (w ++ s)

/-- The string spelled by a path: `w := ""` followed by the loop. -/
def spell (b : board) (p : path) : Except Err GoString :=
  spell.loop b p []

/-- What a task and its descendants have sent when the task is over: the words sent on
`ws`, and the number of `Done` values the task itself sent on `out`. -/
structure Report where
  emitted : words
  signals : Nat
  deriving DecidableEq, Repr

/-- Source: `func Wordfinder(p path, d dictionary, b board, ws chan<- string, out DoneSignal)`.
The four goroutines are run in the order they are started (up, left, down, right); the
fan-in loop sends one `Done` on `out` once it has received four on `in`, and blocks
forever otherwise. -/
def Wordfinder : Nat → path → dictionary → board → Except Err Report
  | 0, _, _, _ => .error .fuel
  | fuel + 1, p, d, b => do
    let legal ← b.IsLegal p
    if legal = false then pure ⟨[], 1⟩
    else do
      let w ← spell b p
      let subdict := d.Filter w
      if subdict.length = 0 then pure ⟨[], 1⟩
      else do
        let own : words := if subdict.Contains w then [w] else []
        let up ← p.Offset (-1) 0
        let down ← p.Offset 1 0
        let left ← p.Offset 0 (-1)
        let right ← p.Offset 0 1
        let r1 ← Wordfinder fuel up subdict b
        let r2 ← Wordfinder fuel left subdict b
        let r3 ← Wordfinder fuel down subdict b
        let r4 ← Wordfinder fuel right subdict b
        pure ⟨own ++ r1.emitted ++ r2.emitted ++ r3.emitted ++ r4.emitted,
              if 4 ≤ r1.signals + r2.signals + r3.signals + r4.signals then 1 else 0⟩

/-- The `uniques` map of `RemoveDuplicates` after the first loop, as the list of its keys:
a key is added only when the lookup `uniques[w]` misses. -/
def RemoveDuplicates.uniques : List GoString → List GoString → List GoString
  | [], keys => keys
  | w :: rest, keys =>
    if w ∈ keys then RemoveDuplicates.uniques rest keys
    else RemoveDuplicates.uniques rest (keys ++ [w])

/-- Source: `func (in words) RemoveDuplicates() (out words)`.  Go leaves the order in which
`range` visits a map unspecified; `order` is that order, a rearrangement of the keys. -/
def words.RemoveDuplicates (order : List GoString → List GoString) (inp : words) : words :=
  order (RemoveDuplicates.uniques inp [])

/-- The two inner loops of `LongestNWords` for one word `w`: at the first slot `i` with
`len(w) > len(out[i])` the slots `i .. n-2` move one place back, `w` is stored at `i`,
and the scan stops (`continue WordLoop`). -/
def LongestNWords.insert (w : GoString) : List GoString → List GoString
  | [] => []
  | x :: rest =>
    if w.length > x.length then w :: (x :: rest).dropLast
    else x :: LongestNWords.insert w rest

/-- Source: `func (in words) LongestNWords(n int) (out words)`; `make(words, n)` panics
for a negative `n` and gives `n` empty strings otherwise. -/
def words.LongestNWords (inp : words) (n : Int) : Except Err words :=
  if n < 0 then .error .panic
  else .ok (inp.foldl (fun out w => LongestNWords.insert w out) (List.replicate n.toNat []))

/-- The loop of `main` that reads the word list, with the slice `dict` built so far:
each line is lower-cased and appended when `len(word) >= 3`.  `lower` stands for the
library function `strings.ToLower`. -/
def ingest (lower : GoString → GoString) : List GoString → dictionary → dictionary
  | [], dict => dict
  | line :: rest, dict =>
    if (lower line).length ≥ 3 then ingest lower rest (dict ++ [lower line])
    else ingest lower rest dict

/-- The paths of the root tasks of `main`, in the order they are started:
`for i, _ := range board { for j, _ := range board { c := cell{i, j}; p := path{c} ... } }`.
Both loops range over `board`, so `i` and `j` both run below `len(board)`. -/
def rootPaths (b : board) : List path :=
  (List.range b.length).flatMap fun (i : Nat) =>
    (List.range b.length).map fun (j : Nat) => [⟨(i : Int), (j : Int)⟩]

/-- What the root tasks `go Wordfinder(p, dict, board, ws, done)` have sent when all of
them are over: the words sent on `ws` and the number of `Done` values sent on `done`. -/
def runRoots (fuel : Nat) (dict : dictionary) (b : board) : List path → Except Err Report
  | [] => .ok ⟨[], 0⟩
  | p :: rest => do
    let r ← Wordfinder fuel p dict b
    let rs ← runRoots fuel dict b rest
    pure ⟨r.emitted ++ rs.emitted, r.signals + rs.signals⟩

/-- The loop `for _ = range done` of `main`, given the number of `Done` values that
arrive and the value of `workersRemaining`: `true` when it reaches `close(ws)` and
`break`, `false` when it blocks for ever waiting for another value. -/
def rootLoop : Nat → Int → Bool
  | 0, _ => false
  | arriving + 1, workersRemaining =>
    if workersRemaining > 1 then rootLoop arriving (workersRemaining - 1) else true

/-- What `main` reports: the value of `workersRemaining` after the root tasks were
started, the slice `answer` after `RemoveDuplicates`, the printed count `len(answer)` and
the printed `answer.LongestNWords(10)`. -/
structure Summary where
  workers : Nat
  answer : words
  count : Nat
  longest : words
  deriving DecidableEq, Repr

/-- How the read of `answer` in `answer = answer.RemoveDuplicates()` falls relative to the
collecting goroutine.  `main` reads `answer` right after `close(ws)`, and nothing orders
the collector's `answer = append(answer, word)` for the word it received last before that
read (the appends of the words received earlier are ordered before it, through the
channel operations).  `settled`: that append is complete when `main` reads.  `pending k`:
it is not, and `main` reads the slice without the word in question, the `k`-th of the
words sent.  `torn`: the read overlaps the write of the slice header and the run crashes
in `RemoveDuplicates`. -/
inductive Race where
  | settled : Race
  | pending : Nat → Race
  | torn : Race
  deriving DecidableEq, Repr

/-- The slice `main` finds in `answer` after `close(ws)`, given the words sent on `ws`.
When no word was sent the collecting goroutine never writes `answer`, and `main` reads
the empty slice it made. -/
def readAnswer : Race → words → Except Err words
  | _, [] => .ok []
  | .settled, sent => .ok sent
  | .pending k, sent => .ok (sent.eraseIdx k)
  | .torn, _ => .error .panic

/-- Source: `func main()`, from `ws := make(chan string)` on, for a given board and word
list.  `race` is how the unsynchronised read of `answer` falls; `order` is the order in
which `RemoveDuplicates` visits its map. -/
def main (order : List GoString → List GoString) (race : Race) (fuel : Nat)
    (dict : dictionary) (b : board) : Except Err Summary := do
  let roots := rootPaths b
  let workersRemaining := roots.length
  let r ← runRoots fuel dict b roots
  if rootLoop r.signals (workersRemaining : Int) = false then .error .deadlock
  else do
    let seen ← readAnswer race r.emitted
    let answer := words.RemoveDuplicates order seen
    let longest ← words.LongestNWords answer 10
    pure ⟨workersRemaining, answer, answer.length, longest⟩

/-- Source: `Wordfinder` once more, keeping track of the goroutines: the same run, which
returns with the report the paths of all the tasks that were started, the path of the
task itself first, then those of the tasks started by and below its four children. -/
def explore : Nat → path → dictionary → board → Except Err (Report × List path)
  | 0, _, _, _ => .error .fuel
  | fuel + 1, p, d, b => do
    let legal ← b.IsLegal p
    if legal = false then pure (⟨[], 1⟩, [p])
    else do
      let w ← spell b p
      let subdict := d.Filter w
      if subdict.length = 0 then pure (⟨[], 1⟩, [p])
      else do
        let own : words := if subdict.Contains w then [w] else []
        let up ← p.Offset (-1) 0
        let down ← p.Offset 1 0
        let left ← p.Offset 0 (-1)
        let right ← p.Offset 0 1
        let r1 ← explore fuel up subdict b
        let r2 ← explore fuel left subdict b
        let r3 ← explore fuel down subdict b
        let r4 ← explore fuel right subdict b
        pure (⟨own ++ r1.1.emitted ++ r2.1.emitted ++ r3.1.emitted ++ r4.1.emitted,
                if 4 ≤ r1.1.signals + r2.1.signals + r3.1.signals + r4.1.signals
                then 1 else 0⟩,
              p :: (r1.2 ++ r2.2 ++ r3.2 ++ r4.2))

/-! ## Vocabulary of the specification -/

/-- Go's `<=` on strings: the lexicographic order on their bytes. -/
def strLe : GoString → GoString → Bool
  | [], _ => true
  | _ :: _, [] => false
  | a :: as, b :: bs => if a < b then true else if a = b then strLe as bs else false

/-- A list of strings sorted ascending lexicographically (duplicates allowed). -/
def sortedAsc (d : List GoString) : Prop :=
  d.Pairwise (fun x y => strLe x y = true)

instance (d : List GoString) : Decidable (sortedAsc d) := by
  unfold sortedAsc; infer_instance

/-- The first `len(pfx)` characters of `w` equal `pfx`. -/
def hasPrefix (pfx w : GoString) : Prop :=
  w.take pfx.length = pfx

instance (pfx w : GoString) : Decidable (hasPrefix pfx w) := by
  unfold hasPrefix; infer_instance

/-- An entry that ends the scan of `Filter` once something has been kept: it is at least
as long as the prefix and its first `len(pfx)` characters differ from it. -/
def blocks (pfx w : GoString) : Prop :=
  pfx.length ≤ w.length ∧ ¬ hasPrefix pfx w

instance (pfx w : GoString) : Decidable (blocks pfx w) := by
  unfold blocks; infer_instance

/-- A grid all of whose rows have `C` columns. -/
def rectangular (b : board) (C : Nat) : Prop :=
  ∀ row ∈ b, row.length = C

instance (b : board) (C : Nat) : Decidable (rectangular b C) := by
  unfold rectangular; infer_instance

/-- A cell within the bounds of an `R × C` grid. -/
def inBounds (R C : Nat) (c : cell) : Prop :=
  0 ≤ c.row ∧ c.row < (R : Int) ∧ 0 ≤ c.col ∧ c.col < (C : Int)

instance (R C : Nat) (c : cell) : Decidable (inBounds R C c) := by
  unfold inBounds; infer_instance

/-- Two cells that are orthogonal neighbours: one step in the row or one step in the
column, not both. -/
def adjacent (x y : cell) : Prop :=
  (y.col = x.col ∧ (y.row = x.row - 1 ∨ y.row = x.row + 1)) ∨
  (y.row = x.row ∧ (y.col = x.col - 1 ∨ y.col = x.col + 1))

instance (x y : cell) : Decidable (adjacent x y) := by
  unfold adjacent; infer_instance

/-! ## Auxiliary definitions used in the proofs -/

/-- The number of columns `IsLegal` works with: `len(board[0])`. -/
def cols (b : board) : Nat :=
  match b with
  | [] => 0
  | row0 :: _ => row0.length

/-- The path `p` extended by the cell at offset `(dr, dc)` from `last`. -/
def extend (p : path) (last : cell) (dr dc : Int) : path :=
  p ++ [⟨last.row + dr, last.col + dc⟩]

/-- What a finished task is known to have emitted: every word of `d` spelled by a legal
continuation `t` of its path `e ++ [last]`. -/
def emitsAll (b : board) (C : Nat) (e : path) (last : cell) (d : dictionary)
    (r : Report) : Prop :=
  ∀ (t : path) (wd : GoString), (e ++ [last] ++ t).Nodup →
    (∀ x ∈ e ++ [last] ++ t, inBounds b.length C x) → List.Chain' adjacent (last :: t) →
    spell b (e ++ [last] ++ t) = .ok wd → wd ∈ d → wd ∈ r.emitted

/-- The test `len(w) > len(out[i])` of `LongestNWords`, as a relation. -/
def longer (w x : GoString) : Prop := x.length < w.length

instance : DecidableRel longer := fun w x => by unfold longer; infer_instance

/-- The slots are ordered by descending length. -/
def descending (out : List GoString) : Prop :=
  out.Pairwise (fun x y => y.length ≤ x.length)

/-- The slot array without its size limit: every word is inserted in front of the first
strictly shorter entry and nothing is dropped. -/
def unbounded (T : List GoString) (ws : List GoString) : List GoString :=
  ws.foldl (fun T w => T.orderedInsert longer w) T

/-- The order "descending" on lengths. -/
def geNat (a b : Nat) : Prop := b ≤ a

instance : DecidableRel geNat := fun a b => by unfold geNat; infer_instance

instance : IsTotal Nat geNat := ⟨fun a b => by unfold geNat; omega⟩

instance : IsTrans Nat geNat := ⟨fun a b c h1 h2 => by unfold geNat at *; omega⟩

instance : IsAntisymm Nat geNat := ⟨fun a b h1 h2 => by unfold geNat at *; omega⟩

/-- The `subdict` computed by the task that is reached from the task with path `p` and
word list `d` by appending the cells `t` one at a time: every task on the way filters the
list it was given by the string its own path spells and hands the result to its children. -/
def subdictAfter (b : board) : path → dictionary → List cell → Except Err dictionary
  | p, d, [] =>
    match spell b p with
    | .error e => .error e
    | .ok w => .ok (d.Filter w)
  | p, d, c :: t =>
    match spell b p with
    | .error e => .error e
    | .ok w => subdictAfter b (p ++ [c]) (d.Filter w) t

/-! ## Filter -/

theorem strLe_between (pfx : GoString) : ∀ x y z : GoString,
    strLe x y = true → strLe y z = true → hasPrefix pfx x → hasPrefix pfx z →
    hasPrefix pfx y := by
  unfold hasPrefix
  induction pfx with
  | nil => intro x y z _ _ _ _; simp
  | cons a pfx ih =>
    intro x y z hxy hyz hx hz
    cases x with
    | nil => simp at hx
    | cons a1 x =>
      cases z with
      | nil => simp at hz
      | cons a3 z =>
        cases y with
        | nil => simp [strLe] at hxy
        | cons a2 y =>
          simp only [List.length_cons, List.take_succ_cons, List.cons.injEq] at hx hz ⊢
          obtain ⟨e1, hx⟩ := hx
          obtain ⟨e3, hz⟩ := hz
          rw [e1] at hxy
          rw [e3] at hyz
          simp only [strLe] at hxy hyz
          by_cases h1 : a < a2
          · by_cases h2 : a2 < a
            · exact absurd h1 (not_lt_of_lt h2)
            · simp only [h2, if_false] at hyz
              by_cases h3 : a2 = a
              · subst h3; exact absurd h1 (lt_irrefl _)
              · simp [h3] at hyz
          · simp only [h1, if_false] at hxy
            by_cases h3 : a = a2
            · subst h3
              simp only [lt_irrefl, if_false, if_true] at hxy hyz
              exact ⟨rfl, ih x y z hxy hyz hx hz⟩
            · simp [h3] at hxy

theorem Filter_loop_sorted (pfx : GoString) : ∀ (l : List GoString) (out : dictionary),
    sortedAsc l →
    (out ≠ [] → ∃ x, hasPrefix pfx x ∧ ∀ w ∈ l, strLe x w = true) →
    Filter.loop pfx l out = out ++ l.filter (fun w => decide (hasPrefix pfx w)) := by
  intro l
  induction l with
  | nil => intro out _ _; simp [Filter.loop]
  | cons w rest ih =>
    intro out hs hout
    have hs' : sortedAsc rest := (List.pairwise_cons.mp hs).2
    have hw : ∀ z ∈ rest, strLe w z = true := (List.pairwise_cons.mp hs).1
    have hout' : out ≠ [] → ∃ x, hasPrefix pfx x ∧ ∀ z ∈ rest, strLe x z = true := by
      intro h
      obtain ⟨x, hx, hall⟩ := hout h
      exact ⟨x, hx, fun z hz => hall z (List.mem_cons_of_mem _ hz)⟩
    unfold Filter.loop
    by_cases hlen : w.length ≥ pfx.length
    · rw [if_pos hlen]
      by_cases hm : w.take pfx.length = pfx
      · rw [if_pos hm]
        have hm' : hasPrefix pfx w := hm
        rw [ih (out ++ [w]) hs' (fun _ => ⟨w, hm', hw⟩)]
        simp [List.filter_cons, hm']
      · rw [if_neg hm]
        have hm' : ¬ hasPrefix pfx w := hm
        by_cases ho : out.length > 0
        · rw [if_pos ho]
          have hne : out ≠ [] := by
            intro h; rw [h] at ho; simp at ho
          obtain ⟨x, hx, hall⟩ := hout hne
          have hnone : rest.filter (fun w => decide (hasPrefix pfx w)) = [] := by
            rw [List.filter_eq_nil_iff]
            intro z hz hzm
            have hzm' : hasPrefix pfx z := by simpa using hzm
            exact hm' (strLe_between pfx x w z (hall w (List.mem_cons_self _ _)) (hw z hz) hx hzm')
          simp [List.filter_cons, hm', hnone]
        · rw [if_neg ho]
          rw [ih out hs' hout']
          simp [List.filter_cons, hm']
    · rw [if_neg hlen]
      have hm' : ¬ hasPrefix pfx w := by
        intro h
        unfold hasPrefix at h
        apply hlen
        have := congrArg List.length h
        simp at this
        omega
      rw [ih out hs' hout']
      simp [List.filter_cons, hm']

theorem filter_sorted_run (pfx : GoString) : ∀ (d : List GoString), sortedAsc d →
    ∃ l r, d = l ++ d.filter (fun w => decide (hasPrefix pfx w)) ++ r ∧
      (∀ w ∈ l, ¬ hasPrefix pfx w) ∧ (∀ w ∈ r, ¬ hasPrefix pfx w) := by
  intro d
  induction d with
  | nil => intro _; exact ⟨[], [], by simp⟩
  | cons w rest ih =>
    intro hs
    have hs' : sortedAsc rest := (List.pairwise_cons.mp hs).2
    have hw : ∀ z ∈ rest, strLe w z = true := (List.pairwise_cons.mp hs).1
    obtain ⟨l, r, hd, hl, hr⟩ := ih hs'
    by_cases hm : hasPrefix pfx w
    · by_cases hmid : rest.filter (fun w => decide (hasPrefix pfx w)) = []
      · refine ⟨[], l ++ r, ?_, by simp, ?_⟩
        · rw [hmid] at hd
          simp only [List.append_nil] at hd
          simp [List.filter_cons, hm, hmid, ← hd]
        · intro z hz
          rcases List.mem_append.mp hz with h | h
          · exact hl z h
          · exact hr z h
      · have hlnil : l = [] := by
          obtain ⟨m, hmm⟩ := List.exists_mem_of_ne_nil _ hmid
          have hmp : hasPrefix pfx m := by
            have := (List.mem_filter.mp hmm).2
            simpa using this
          cases l with
          | nil => rfl
          | cons y l' =>
            exfalso
            have hyrest : y ∈ rest := by rw [hd]; simp
            have hym : strLe y m = true := by
              have hs2 := hs'
              unfold sortedAsc at hs2
              rw [hd] at hs2
              have h1 := (List.pairwise_append.mp (List.pairwise_append.mp hs2).1).2.2
              exact h1 y (List.mem_cons_self _ _) m hmm
            exact hl y (List.mem_cons_self _ _)
              (strLe_between pfx w y m (hw y hyrest) hym hm hmp)
        subst hlnil
        refine ⟨[], r, ?_, by simp, hr⟩
        simp only [List.nil_append] at hd
        simp only [List.filter_cons, hm, decide_True, if_true, List.nil_append,
          List.cons_append]
        rw [← hd]
    · refine ⟨w :: l, r, ?_, ?_, hr⟩
      · simp only [List.filter_cons, hm, decide_False, Bool.false_eq_true, if_false,
          List.cons_append]
        rw [List.cons.injEq]
        exact ⟨rfl, hd⟩
      · intro z hz
        rcases List.mem_cons.mp hz with h | h
        · rw [h]; exact hm
        · exact hl z h

/-- On a sorted list the early exit of `Filter` skips nothing: it is the plain filter. -/
theorem Filter_eq_filter (d : dictionary) (pfx : GoString) (hs : sortedAsc d) :
    d.Filter pfx = d.filter (fun w => decide (hasPrefix pfx w)) := by
  unfold dictionary.Filter
  rw [Filter_loop_sorted pfx d [] hs (fun h => absurd rfl h)]
  simp

/-- C4: on a list sorted ascending lexicographically (duplicates allowed), `Filter`
returns exactly the entries whose first `len(prefix)` characters equal the prefix, in
their original order, and these entries form one contiguous run of the list with no
matching entry before or after it. -/
theorem Filter_on_sorted_list (d : dictionary) (pfx : GoString) (hs : sortedAsc d) :
    d.Filter pfx = d.filter (fun w => decide (hasPrefix pfx w)) ∧
    ∃ l r, d = l ++ d.Filter pfx ++ r ∧
      (∀ w ∈ l, ¬ hasPrefix pfx w) ∧ (∀ w ∈ r, ¬ hasPrefix pfx w) := by
  refine ⟨Filter_eq_filter d pfx hs, ?_⟩
  rw [Filter_eq_filter d pfx hs]
  exact filter_sorted_run pfx d hs

/-- Witness for C4 on the list `["ab", "cas", "cat", "cat", "dog"]` and the prefix `"ca"`. -/
theorem Filter_on_sorted_list_witness :
    sortedAsc ["ab".toList, "cas".toList, "cat".toList, "cat".toList, "dog".toList] ∧
    dictionary.Filter ["ab".toList, "cas".toList, "cat".toList, "cat".toList, "dog".toList]
        "ca".toList
      = ["cas".toList, "cat".toList, "cat".toList] :=
  ⟨by decide,
   (Filter_on_sorted_list ["ab".toList, "cas".toList, "cat".toList, "cat".toList, "dog".toList]
      "ca".toList (by decide)).1.trans (by decide)⟩

/-! ## IsLegal -/

theorem index_ok {α : Type} (l : List α) (i : Int) (h0 : 0 ≤ i) (h1 : i < (l.length : Int)) :
    ∃ x, index l i = .ok x ∧ l.get? i.toNat = some x := by
  have hlt : i.toNat < l.length := by omega
  refine ⟨l.get ⟨i.toNat, hlt⟩, ?_, List.get?_eq_get hlt⟩
  unfold index
  rw [if_neg (by omega), List.get?_eq_get hlt]

theorem IsLegal_loop_iff (last : cell) : ∀ earlier : List cell,
    IsLegal.loop last earlier = true ↔ ∀ x ∈ earlier, x ≠ last := by
  intro earlier
  induction earlier with
  | nil => simp [IsLegal.loop]
  | cons c rest ih =>
    unfold IsLegal.loop
    by_cases h : last = c
    · subst h; simp
    · rw [if_neg h, ih]
      constructor
      · intro hr x hx
        rcases List.mem_cons.mp hx with e | e
        · rw [e]; exact fun h2 => h h2.symm
        · exact hr x e
      · intro hr x hx
        exact hr x (List.mem_cons_of_mem _ hx)

theorem IsLegal_general (b : board) (earlier : path) (last : cell) :
    b.IsLegal (earlier ++ [last]) =
      .ok (decide (inBounds b.length (cols b) last) && IsLegal.loop last earlier) := by
  have hl : (earlier ++ [last]).getLast? = some last := by simp
  unfold board.IsLegal
  rw [hl]
  simp only [List.dropLast_concat]
  by_cases hr : last.row < 0 ∨ last.row ≥ (b.length : Int)
  · rw [if_pos hr]
    have : ¬ inBounds b.length (cols b) last := by
      unfold inBounds; omega
    simp [this]
  · rw [if_neg hr]
    cases b with
    | nil => simp at hr; omega
    | cons row0 rows =>
      have h0 : index (row0 :: rows) 0 = .ok row0 := by simp [index]
      rw [h0]
      simp only [cols]
      by_cases hc : last.col < 0 ∨ last.col ≥ (row0.length : Int)
      · rw [if_pos hc]
        have : ¬ inBounds (rows.length + 1) row0.length last := by
          unfold inBounds; simp only [List.length_cons] at hr; omega
        simp [this]
      · rw [if_neg hc]
        have : inBounds (rows.length + 1) row0.length last := by
          unfold inBounds; simp only [List.length_cons] at hr; omega
        simp [this]

theorem inBounds_cols (b : board) (C : Nat) (hC : rectangular b C) (c : cell) :
    inBounds b.length (cols b) c ↔ inBounds b.length C c := by
  cases b with
  | nil => unfold inBounds; simp; omega
  | cons row0 rows =>
    have : row0.length = C := hC row0 (List.mem_cons_self _ _)
    simp [cols, this]

theorem IsLegal_snoc (b : board) (C : Nat) (hC : rectangular b C) (earlier : path)
    (last : cell) :
    b.IsLegal (earlier ++ [last]) =
      .ok (decide (inBounds b.length C last) && IsLegal.loop last earlier) := by
  rw [IsLegal_general]
  simp only [inBounds_cols b C hC]

/-- C5: on a non-empty path (the cells `earlier` followed by the cell `last`) and a
rectangular grid with `R` rows and `C` columns (in particular when `R ≥ 1` and `C ≥ 1`),
`IsLegal` returns a boolean, and it is `true` if and only if `last = (r, c)` satisfies
`0 ≤ r < R`, `0 ≤ c < C` and differs from every earlier cell of the path. -/
theorem IsLegal_iff (b : board) (R C : Nat) (earlier : path) (last : cell)
    (hrows : b.length = R) (hcols : rectangular b C) :
    ∃ v, b.IsLegal (earlier ++ [last]) = .ok v ∧
      (v = true ↔
        ((0 ≤ last.row ∧ last.row < (R : Int)) ∧ (0 ≤ last.col ∧ last.col < (C : Int)) ∧
          ∀ x ∈ earlier, x ≠ last)) := by
  refine ⟨_, IsLegal_snoc b C hcols earlier last, ?_⟩
  rw [Bool.and_eq_true, IsLegal_loop_iff, decide_eq_true_iff, hrows]
  unfold inBounds
  constructor
  · rintro ⟨⟨h1, h2, h3, h4⟩, h5⟩; exact ⟨⟨h1, h2⟩, ⟨h3, h4⟩, h5⟩
  · rintro ⟨⟨h1, h2⟩, ⟨h3, h4⟩, h5⟩; exact ⟨⟨h1, h2, h3, h4⟩, h5⟩

/-- Witness for C5 on the 2 × 2 grid `c a / t s` and the path `(0,0), (0,1), (1,1)`. -/
theorem IsLegal_iff_witness :
    ∃ v, board.IsLegal [["c".toList, "a".toList], ["t".toList, "s".toList]]
        ([⟨0, 0⟩, ⟨0, 1⟩] ++ [⟨1, 1⟩]) = .ok v ∧
      (v = true ↔
        ((0 ≤ (1 : Int) ∧ (1 : Int) < (2 : Nat)) ∧ (0 ≤ (1 : Int) ∧ (1 : Int) < (2 : Nat)) ∧
          ∀ x ∈ ([⟨0, 0⟩, ⟨0, 1⟩] : path), x ≠ (⟨1, 1⟩ : cell))) :=
  IsLegal_iff [["c".toList, "a".toList], ["t".toList, "s".toList]] 2 2
    [⟨0, 0⟩, ⟨0, 1⟩] ⟨1, 1⟩ (by decide) (by decide)

/-! ## Wordfinder: the shape of one task -/

theorem Offset_snoc (e : path) (last : cell) (dr dc : Int) :
    (e ++ [last]).Offset dr dc = .ok (extend (e ++ [last]) last dr dc) := by
  have hl : (e ++ [last]).getLast? = some last := by simp
  unfold path.Offset extend
  rw [hl]

theorem Wordfinder_illegal (fuel : Nat) (p : path) (d : dictionary) (b : board)
    (hL : b.IsLegal p = .ok false) : Wordfinder (fuel + 1) p d b = .ok ⟨[], 1⟩ := by
  rw [Wordfinder]
  simp [bind, Except.bind, hL, pure, Except.pure]

theorem Wordfinder_pruned (fuel : Nat) (p : path) (d : dictionary) (b : board) (w : GoString)
    (hL : b.IsLegal p = .ok true) (hw : spell b p = .ok w) (hF : (d.Filter w).length = 0) :
    Wordfinder (fuel + 1) p d b = .ok ⟨[], 1⟩ := by
  rw [Wordfinder]
  simp [bind, Except.bind, hL, hw, hF, pure, Except.pure]

theorem Wordfinder_node (fuel : Nat) (e : path) (last : cell) (d : dictionary) (b : board)
    (w : GoString) (hL : b.IsLegal (e ++ [last]) = .ok true)
    (hw : spell b (e ++ [last]) = .ok w) (hF : (d.Filter w).length ≠ 0) :
    Wordfinder (fuel + 1) (e ++ [last]) d b =
      (Wordfinder fuel (extend (e ++ [last]) last (-1) 0) (d.Filter w) b).bind fun r1 =>
      (Wordfinder fuel (extend (e ++ [last]) last 0 (-1)) (d.Filter w) b).bind fun r2 =>
      (Wordfinder fuel (extend (e ++ [last]) last 1 0) (d.Filter w) b).bind fun r3 =>
      (Wordfinder fuel (extend (e ++ [last]) last 0 1) (d.Filter w) b).bind fun r4 =>
      .ok ⟨(if (d.Filter w).Contains w then [w] else [])
              ++ r1.emitted ++ r2.emitted ++ r3.emitted ++ r4.emitted,
            if 4 ≤ r1.signals + r2.signals + r3.signals + r4.signals then 1 else 0⟩ := by
  rw [Wordfinder]
  simp only [bind, Except.bind, hL, hw, Offset_snoc, pure, Except.pure]
  simp [hF]

theorem IsLegal_nil (b : board) : b.IsLegal [] = .error .panic := rfl

theorem Wordfinder_nil (fuel : Nat) (d : dictionary) (b : board) (r : Report) :
    Wordfinder fuel [] d b ≠ .ok r := by
  cases fuel with
  | zero => simp [Wordfinder]
  | succ n =>
    rw [Wordfinder]
    simp [bind, Except.bind, IsLegal_nil]

/-- Every way a task with a non-empty path can finish: rejected by `IsLegal`, pruned by
an empty filter result, or a node whose four children all finished. -/
theorem Wordfinder_cases (fuel : Nat) (e : path) (last : cell) (d : dictionary) (b : board)
    (r : Report) (h : Wordfinder (fuel + 1) (e ++ [last]) d b = .ok r) :
    (b.IsLegal (e ++ [last]) = .ok false ∧ r = ⟨[], 1⟩) ∨
    (b.IsLegal (e ++ [last]) = .ok true ∧ ∃ w, spell b (e ++ [last]) = .ok w ∧
      (((d.Filter w).length = 0 ∧ r = ⟨[], 1⟩) ∨
       ((d.Filter w).length ≠ 0 ∧ ∃ r1 r2 r3 r4,
          Wordfinder fuel (extend (e ++ [last]) last (-1) 0) (d.Filter w) b = .ok r1 ∧
          Wordfinder fuel (extend (e ++ [last]) last 0 (-1)) (d.Filter w) b = .ok r2 ∧
          Wordfinder fuel (extend (e ++ [last]) last 1 0) (d.Filter w) b = .ok r3 ∧
          Wordfinder fuel (extend (e ++ [last]) last 0 1) (d.Filter w) b = .ok r4 ∧
          r = ⟨(if (d.Filter w).Contains w then [w] else [])
                  ++ r1.emitted ++ r2.emitted ++ r3.emitted ++ r4.emitted,
                if 4 ≤ r1.signals + r2.signals + r3.signals + r4.signals then 1 else 0⟩))) := by
  cases hL : b.IsLegal (e ++ [last]) with
  | error x =>
    rw [Wordfinder] at h
    simp [bind, Except.bind, hL] at h
  | ok v =>
    cases v with
    | false =>
      rw [Wordfinder_illegal fuel _ d b hL] at h
      left
      exact ⟨rfl, (Except.ok.inj h).symm⟩
    | true =>
      right
      refine ⟨rfl, ?_⟩
      cases hw : spell b (e ++ [last]) with
      | error x =>
        rw [Wordfinder] at h
        simp [bind, Except.bind, hL, hw] at h
      | ok w =>
        refine ⟨w, rfl, ?_⟩
        by_cases hF : (d.Filter w).length = 0
        · left
          rw [Wordfinder_pruned fuel _ d b w hL hw hF] at h
          exact ⟨hF, (Except.ok.inj h).symm⟩
        · right
          refine ⟨hF, ?_⟩
          rw [Wordfinder_node fuel e last d b w hL hw hF] at h
          cases h1 : Wordfinder fuel (extend (e ++ [last]) last (-1) 0) (d.Filter w) b with
          | error x => rw [h1] at h; simp [Except.bind] at h
          | ok r1 =>
            cases h2 : Wordfinder fuel (extend (e ++ [last]) last 0 (-1)) (d.Filter w) b with
            | error x => rw [h1, h2] at h; simp [Except.bind] at h
            | ok r2 =>
              cases h3 : Wordfinder fuel (extend (e ++ [last]) last 1 0) (d.Filter w) b with
              | error x => rw [h1, h2, h3] at h; simp [Except.bind] at h
              | ok r3 =>
                cases h4 : Wordfinder fuel (extend (e ++ [last]) last 0 1) (d.Filter w) b with
                | error x => rw [h1, h2, h3, h4] at h; simp [Except.bind] at h
                | ok r4 =>
                  rw [h1, h2, h3, h4] at h
                  simp only [Except.bind] at h
                  exact ⟨r1, r2, r3, r4, rfl, rfl, rfl, rfl, (Except.ok.inj h).symm⟩

theorem Filter_loop_mem (pfx : GoString) : ∀ (l : List GoString) (out : dictionary) (x : GoString),
    x ∈ Filter.loop pfx l out → x ∈ out ∨ x ∈ l := by
  intro l
  induction l with
  | nil => intro out x hx; left; simpa [Filter.loop] using hx
  | cons w rest ih =>
    intro out x hx
    unfold Filter.loop at hx
    split at hx
    · split at hx
      · rcases ih _ x hx with h | h
        · rcases List.mem_append.mp h with h | h
          · exact Or.inl h
          · right; rw [List.mem_singleton.mp h]; exact List.mem_cons_self _ _
        · exact Or.inr (List.mem_cons_of_mem _ h)
      · split at hx
        · exact Or.inl hx
        · rcases ih _ x hx with h | h
          · exact Or.inl h
          · exact Or.inr (List.mem_cons_of_mem _ h)
    · rcases ih _ x hx with h | h
      · exact Or.inl h
      · exact Or.inr (List.mem_cons_of_mem _ h)

theorem Filter_mem (d : dictionary) (pfx x : GoString) (h : x ∈ d.Filter pfx) : x ∈ d := by
  rcases Filter_loop_mem pfx d [] x h with h | h
  · simp at h
  · exact h

theorem Contains_iff (d : dictionary) (w : GoString) : d.Contains w = true ↔ w ∈ d := by
  induction d with
  | nil => simp [dictionary.Contains]
  | cons x rest ih =>
    unfold dictionary.Contains
    by_cases h : x = w
    · simp [h]
    · rw [if_neg h, ih]
      constructor
      · exact fun hm => List.mem_cons_of_mem _ hm
      · intro hm
        rcases List.mem_cons.mp hm with e | e
        · exact absurd e.symm h
        · exact e

theorem Wordfinder_emitted_mem (b : board) : ∀ (fuel : Nat) (p : path) (d : dictionary)
    (r : Report), Wordfinder fuel p d b = .ok r → ∀ w ∈ r.emitted, w ∈ d := by
  intro fuel
  induction fuel with
  | zero => intro p d r h; simp [Wordfinder] at h
  | succ n ih =>
    intro p d r h
    rcases List.eq_nil_or_concat p with hp | ⟨e, last, hp⟩
    · rw [hp] at h; exact absurd h (Wordfinder_nil _ d b r)
    · rw [hp, List.concat_eq_append] at h
      rcases Wordfinder_cases n e last d b r h with ⟨_, hr⟩ | ⟨_, w, _, ⟨_, hr⟩ | ⟨_, r1, r2, r3, r4, h1, h2, h3, h4, hr⟩⟩
      · rw [hr]; simp
      · rw [hr]; simp
      · intro x hx
        rw [hr] at hx
        simp only [List.mem_append] at hx
        rcases hx with (((hx | hx) | hx) | hx) | hx
        · split at hx
          · next hc =>
            rw [List.mem_singleton.mp hx]
            exact Filter_mem d w w ((Contains_iff _ _).mp hc)
          · simp at hx
        · exact Filter_mem d w x (ih _ _ _ h1 x hx)
        · exact Filter_mem d w x (ih _ _ _ h2 x hx)
        · exact Filter_mem d w x (ih _ _ _ h3 x hx)
        · exact Filter_mem d w x (ih _ _ _ h4 x hx)

/-- C2: for every grid, every word list whose entries all have length at least 3 and
every root path, every word sent on `ws` by the task or by any of its descendants is an
element of the original word list and has length at least 3. -/
theorem Wordfinder_membership (b : board) (d : dictionary) (p : path) (fuel : Nat)
    (r : Report) (hlen : ∀ w ∈ d, 3 ≤ w.length) (h : Wordfinder fuel p d b = .ok r) :
    ∀ w ∈ r.emitted, w ∈ d ∧ 3 ≤ w.length :=
  fun w hw => ⟨Wordfinder_emitted_mem b fuel p d r h w hw,
    hlen w (Wordfinder_emitted_mem b fuel p d r h w hw)⟩

/-- Witness for C2: the root task of cell `(0,0)` on the grid `c a / t s` with the word
list `["cas", "cat"]` emits `"cas"`. -/
theorem Wordfinder_membership_witness :
    Wordfinder 5 [⟨0, 0⟩] ["cas".toList, "cat".toList]
        [["c".toList, "a".toList], ["t".toList, "s".toList]] = .ok ⟨["cas".toList], 1⟩ ∧
    ∀ w ∈ ["cas".toList], w ∈ ["cas".toList, "cat".toList] ∧ 3 ≤ w.length :=
  ⟨by rfl,
   Wordfinder_membership [["c".toList, "a".toList], ["t".toList, "s".toList]]
     ["cas".toList, "cat".toList] [⟨0, 0⟩] 5 ⟨["cas".toList], 1⟩ (by decide) (by rfl)⟩

/-! ## Spelling a path -/

theorem spell_loop_acc (b : board) : ∀ (p : List cell) (w : GoString),
    spell.loop b p w = (spell.loop b p []).map (fun s => w ++ s) := by
  intro p
  induction p with
  | nil => intro w; simp [spell.loop, Except.map]
  | cons c rest ih =>
    intro w
    unfold spell.loop
    cases h1 : index b c.row with
    | error x => simp [Except.map]
    | ok row =>
      simp only []
      cases h2 : index row c.col with
      | error x => simp [Except.map]
      | ok s =>
        simp only []
        rw [ih (w ++ s), ih ([] ++ s)]
        cases spell.loop b rest [] with
        | error x => simp [Except.map]
        | ok t => simp [Except.map]

theorem spell_loop_append (b : board) : ∀ (p q : List cell) (w : GoString),
    spell.loop b (p ++ q) w = (spell.loop b p w).bind (spell.loop b q) := by
  intro p
  induction p with
  | nil => intro q w; simp [spell.loop, Except.bind]
  | cons c rest ih =>
    intro q w
    simp only [List.cons_append]
    unfold spell.loop
    cases h1 : index b c.row with
    | error x => simp [Except.bind]
    | ok row =>
      simp only []
      cases h2 : index row c.col with
      | error x => simp [Except.bind]
      | ok s => simp only []; exact ih q (w ++ s)

/-- Spelling `p ++ q` succeeds exactly when spelling `p` and `q` does, and gives the
concatenation. -/
theorem spell_append (b : board) (p q : path) (wd : GoString) :
    spell b (p ++ q) = .ok wd ↔
      ∃ w s, spell b p = .ok w ∧ spell b q = .ok s ∧ wd = w ++ s := by
  unfold spell
  rw [spell_loop_append]
  cases hp : spell.loop b p [] with
  | error x => simp [Except.bind]
  | ok w =>
    simp only [Except.bind]
    rw [spell_loop_acc]
    cases hq : spell.loop b q [] with
    | error x => simp [Except.map]
    | ok t =>
      simp only [Except.map, Except.ok.injEq]
      constructor
      · intro h; exact ⟨w, t, rfl, rfl, h.symm⟩
      · rintro ⟨w1, s1, h1, h2, h3⟩; rw [h3, h1, h2]

theorem hasPrefix_append (w s : GoString) : hasPrefix w (w ++ s) := by
  unfold hasPrefix; simp

/-! ## Wordfinder: what is emitted -/

theorem adjacent_extend (last : cell) :
    adjacent last ⟨last.row + -1, last.col + 0⟩ ∧ adjacent last ⟨last.row + 0, last.col + -1⟩ ∧
    adjacent last ⟨last.row + 1, last.col + 0⟩ ∧ adjacent last ⟨last.row + 0, last.col + 1⟩ := by
  unfold adjacent
  refine ⟨?_, ?_, ?_, ?_⟩ <;> simp <;> omega

/-- A legal path whose earlier cells are distinct and in bounds is itself made of
distinct in-bounds cells. -/
theorem legal_path (b : board) (e : path) (last : cell)
    (hL : b.IsLegal (e ++ [last]) = .ok true) (hnd : e.Nodup)
    (hin : ∀ x ∈ e, inBounds b.length (cols b) x) :
    (e ++ [last]).Nodup ∧ ∀ x ∈ e ++ [last], inBounds b.length (cols b) x := by
  rw [IsLegal_general] at hL
  have hL2 := Except.ok.inj hL
  rw [Bool.and_eq_true, decide_eq_true_iff, IsLegal_loop_iff] at hL2
  constructor
  · rw [List.nodup_append]
    refine ⟨hnd, List.nodup_singleton _, ?_⟩
    intro x hx hx2
    rw [List.mem_singleton] at hx2
    exact hL2.2 x hx hx2
  · intro x hx
    rcases List.mem_append.mp hx with h | h
    · exact hin x h
    · rw [List.mem_singleton.mp h]; exact hL2.1

/-- Every emitted word is spelled by an extension of the task's path that keeps its
cells distinct, in bounds, and each one an orthogonal neighbour of the one before. -/
theorem Wordfinder_emitted_path (b : board) : ∀ (fuel : Nat) (e : path) (last : cell)
    (d : dictionary) (r : Report), e.Nodup → (∀ x ∈ e, inBounds b.length (cols b) x) →
    List.Chain' adjacent (e ++ [last]) →
    Wordfinder fuel (e ++ [last]) d b = .ok r →
    ∀ w ∈ r.emitted, ∃ q : path, (e ++ [last]) <+: q ∧ q.Nodup ∧
      (∀ x ∈ q, inBounds b.length (cols b) x) ∧ List.Chain' adjacent q ∧
      spell b q = .ok w := by
  intro fuel
  induction fuel with
  | zero => intro e last d r _ _ _ h; simp [Wordfinder] at h
  | succ n ih =>
    intro e last d r hnd hin hch h
    rcases Wordfinder_cases n e last d b r h with
      ⟨_, hr⟩ | ⟨hL, w, hw, ⟨_, hr⟩ | ⟨_, r1, r2, r3, r4, h1, h2, h3, h4, hr⟩⟩
    · rw [hr]; simp
    · rw [hr]; simp
    · obtain ⟨hnd2, hin2⟩ := legal_path b e last hL hnd hin
      have hchild : ∀ (dr dc : Int) (r0 : Report),
          adjacent last ⟨last.row + dr, last.col + dc⟩ →
          Wordfinder n (extend (e ++ [last]) last dr dc) (d.Filter w) b = .ok r0 →
          ∀ x ∈ r0.emitted, ∃ q : path, (e ++ [last]) <+: q ∧ q.Nodup ∧
            (∀ x ∈ q, inBounds b.length (cols b) x) ∧ List.Chain' adjacent q ∧
            spell b q = .ok x := by
        intro dr dc r0 hadj h0 x hx
        have hch2 : List.Chain' adjacent ((e ++ [last]) ++ [⟨last.row + dr, last.col + dc⟩]) := by
          rw [List.chain'_append]
          refine ⟨hch, List.chain'_singleton _, ?_⟩
          intro y hy z hz
          simp at hy hz
          rw [← hy, ← hz]; exact hadj
        obtain ⟨q, hq1, hq2, hq3, hq4, hq5⟩ := ih (e ++ [last]) _ _ r0 hnd2 hin2 hch2 h0 x hx
        exact ⟨q, (List.prefix_append _ _).trans hq1, hq2, hq3, hq4, hq5⟩
      obtain ⟨a1, a2, a3, a4⟩ := adjacent_extend last
      intro x hx
      rw [hr] at hx
      simp only [List.mem_append] at hx
      rcases hx with (((hx | hx) | hx) | hx) | hx
      · split at hx
        · rw [List.mem_singleton.mp hx]
          exact ⟨e ++ [last], List.prefix_refl _, hnd2, hin2, hch, hw⟩
        · simp at hx
      · exact hchild _ _ r1 a1 h1 x hx
      · exact hchild _ _ r2 a2 h2 x hx
      · exact hchild _ _ r3 a3 h3 x hx
      · exact hchild _ _ r4 a4 h4 x hx

/-- C3: for every grid and word list, every word emitted by a search started from a
single-cell root path `[c]` is the spelling of a path that begins at `c`, in which no
cell occurs twice and every cell is within the grid bounds (`0 ≤ row < len(board)`,
`0 ≤ col < len(board[0])`). -/
theorem Wordfinder_no_revisit (b : board) (d : dictionary) (c : cell) (fuel : Nat)
    (r : Report) (h : Wordfinder fuel [c] d b = .ok r) :
    ∀ w ∈ r.emitted, ∃ q : path, q.head? = some c ∧ q.Nodup ∧
      (∀ x ∈ q, 0 ≤ x.row ∧ x.row < (b.length : Int) ∧ 0 ≤ x.col ∧ x.col < (cols b : Int)) ∧
      spell b q = .ok w := by
  intro w hw
  obtain ⟨q, hq1, hq2, hq3, _, hq5⟩ :=
    Wordfinder_emitted_path b fuel [] c d r List.nodup_nil (by simp) (by simp) h w hw
  refine ⟨q, ?_, hq2, hq3, hq5⟩
  obtain ⟨t, ht⟩ := hq1
  rw [← ht]; rfl

/-- Witness for C3: the root task of cell `(0,0)` on the grid `c a / t s` with the word
list `["cas", "cat"]`. -/
theorem Wordfinder_no_revisit_witness :
    Wordfinder 5 [⟨0, 0⟩] ["cas".toList, "cat".toList]
        [["c".toList, "a".toList], ["t".toList, "s".toList]] = .ok ⟨["cas".toList], 1⟩ ∧
    ∀ w ∈ ["cas".toList], ∃ q : path, q.head? = some ⟨0, 0⟩ ∧ q.Nodup ∧
      (∀ x ∈ q, 0 ≤ x.row ∧ x.row < ((2 : Nat) : Int) ∧ 0 ≤ x.col ∧ x.col < ((2 : Nat) : Int)) ∧
      spell [["c".toList, "a".toList], ["t".toList, "s".toList]] q = .ok w :=
  ⟨by rfl,
   Wordfinder_no_revisit [["c".toList, "a".toList], ["t".toList, "s".toList]]
     ["cas".toList, "cat".toList] ⟨0, 0⟩ 5 ⟨["cas".toList], 1⟩ (by rfl)⟩

/-! ## Wordfinder: termination and completeness -/

/-- Distinct in-bounds cells of an `R × C` grid number at most `R * C`. -/
theorem nodup_length_le (R C : Nat) (e : path) (hnd : e.Nodup)
    (hin : ∀ x ∈ e, inBounds R C x) : e.length ≤ R * C := by
  have hsub : e.toFinset ⊆
      (Finset.range R ×ˢ Finset.range C).image
        (fun ij : Nat × Nat => (⟨(ij.1 : Int), (ij.2 : Int)⟩ : cell)) := by
    intro x hx
    rw [List.mem_toFinset] at hx
    obtain ⟨h1, h2, h3, h4⟩ := hin x hx
    rw [Finset.mem_image]
    refine ⟨(x.row.toNat, x.col.toNat), ?_, ?_⟩
    · rw [Finset.mem_product, Finset.mem_range, Finset.mem_range]
      constructor <;> simp only <;> omega
    · cases x with
      | mk xr xc =>
        simp only at h1 h3
        simp only [cell.mk.injEq]
        exact ⟨Int.toNat_of_nonneg h1, Int.toNat_of_nonneg h3⟩
  have h1 := Finset.card_le_card hsub
  rw [List.toFinset_card_of_nodup hnd] at h1
  have h2 := Finset.card_image_le (s := Finset.range R ×ˢ Finset.range C)
    (f := fun ij : Nat × Nat => (⟨(ij.1 : Int), (ij.2 : Int)⟩ : cell))
  rw [Finset.card_product, Finset.card_range, Finset.card_range] at h2
  exact h1.trans h2

/-- On a rectangular grid every path of in-bounds cells spells a string. -/
theorem spell_ok (b : board) (C : Nat) (hrect : rectangular b C) : ∀ p : path,
    (∀ x ∈ p, inBounds b.length C x) → ∃ w, spell b p = .ok w := by
  intro p
  induction p with
  | nil => intro _; exact ⟨[], rfl⟩
  | cons c rest ih =>
    intro hin
    obtain ⟨h1, h2, h3, h4⟩ := hin c (List.mem_cons_self _ _)
    obtain ⟨row, hrow, hget⟩ := index_ok b c.row h1 h2
    have hlen : row.length = C := hrect row (List.get?_mem hget)
    obtain ⟨s, hs, _⟩ := index_ok row c.col h3 (by rw [hlen]; exact h4)
    obtain ⟨w, hw⟩ := ih (fun x hx => hin x (List.mem_cons_of_mem _ hx))
    refine ⟨s ++ w, ?_⟩
    have happ := (spell_append b [c] rest (s ++ w)).mpr ⟨s, w, ?_, hw, rfl⟩
    · exact happ
    · simp [spell, spell.loop, hrow, hs]

theorem sortedAsc_Filter (d : dictionary) (pfx : GoString) (hs : sortedAsc d) :
    sortedAsc (d.Filter pfx) := by
  rw [Filter_eq_filter d pfx hs]
  exact List.Pairwise.filter _ hs

/-- A sorted word list keeps, under `Filter`, every entry that starts with the prefix. -/
theorem mem_Filter_of_sorted (d : dictionary) (pfx w : GoString) (hs : sortedAsc d)
    (hw : w ∈ d) (hp : hasPrefix pfx w) : w ∈ d.Filter pfx := by
  rw [Filter_eq_filter d pfx hs, List.mem_filter]
  exact ⟨hw, by simpa using hp⟩

theorem adjacent_cases (last c : cell) (h : adjacent last c) :
    c = ⟨last.row + -1, last.col + 0⟩ ∨ c = ⟨last.row + 0, last.col + -1⟩ ∨
    c = ⟨last.row + 1, last.col + 0⟩ ∨ c = ⟨last.row + 0, last.col + 1⟩ := by
  cases c with
  | mk r k =>
    unfold adjacent at h
    simp only [cell.mk.injEq]
    simp only at h
    omega

theorem complete_aux (b : board) (C : Nat) (hrect : rectangular b C) :
    ∀ (fuel : Nat) (e : path) (last : cell) (d : dictionary), sortedAsc d → e.Nodup →
    (∀ x ∈ e, inBounds b.length C x) → b.length * C < fuel + e.length →
    ∃ r, Wordfinder fuel (e ++ [last]) d b = .ok r ∧ emitsAll b C e last d r := by
  intro fuel
  induction fuel with
  | zero =>
    intro e last d _ hnd hin hfuel
    have := nodup_length_le b.length C e hnd hin
    omega
  | succ n ih =>
    intro e last d hs hnd hin hfuel
    have hlegal := IsLegal_snoc b C hrect e last
    cases hv : (decide (inBounds b.length C last) && IsLegal.loop last e) with
    | false =>
      rw [hv] at hlegal
      refine ⟨_, Wordfinder_illegal n _ d b hlegal, ?_⟩
      intro t wd hnd2 hin2 _ _ _
      exfalso
      have h1 : inBounds b.length C last := hin2 last (by simp)
      have h2 : IsLegal.loop last e = true := by
        rw [IsLegal_loop_iff]
        intro x hx hxe
        rw [List.append_assoc, List.nodup_append] at hnd2
        exact hnd2.2.2 hx (by rw [hxe]; simp)
      simp [h1, h2] at hv
    | true =>
      rw [hv] at hlegal
      have hin0 : ∀ x ∈ e, inBounds b.length (cols b) x :=
        fun x hx => (inBounds_cols b C hrect x).mpr (hin x hx)
      obtain ⟨hnd1, hin1⟩ := legal_path b e last hlegal hnd hin0
      have hin1 : ∀ x ∈ e ++ [last], inBounds b.length C x :=
        fun x hx => (inBounds_cols b C hrect x).mp (hin1 x hx)
      obtain ⟨w, hw⟩ := spell_ok b C hrect (e ++ [last]) hin1
      have hpre : ∀ (t : path) (wd : GoString), spell b (e ++ [last] ++ t) = .ok wd →
          wd ∈ d → wd ∈ d.Filter w := by
        intro t wd hsp hwd
        obtain ⟨w1, s1, hw1, _, hcat⟩ := (spell_append b (e ++ [last]) t wd).mp hsp
        rw [hw] at hw1
        have hww : w = w1 := Except.ok.inj hw1
        rw [hcat, ← hww]
        rw [hcat, ← hww] at hwd
        exact mem_Filter_of_sorted d w _ hs hwd (hasPrefix_append w s1)
      by_cases hF : (d.Filter w).length = 0
      · refine ⟨_, Wordfinder_pruned n _ d b w hlegal hw hF, ?_⟩
        intro t wd _ _ _ hsp hwd
        exfalso
        have := hpre t wd hsp hwd
        rw [List.length_eq_zero] at hF
        rw [hF] at this
        simp at this
      · have hfuel2 : b.length * C < n + (e ++ [last]).length := by
          rw [List.length_append, List.length_singleton]; omega
        have hs2 := sortedAsc_Filter d w hs
        obtain ⟨r1, h1, c1⟩ := ih (e ++ [last]) ⟨last.row + -1, last.col + 0⟩ (d.Filter w)
          hs2 hnd1 hin1 hfuel2
        obtain ⟨r2, h2, c2⟩ := ih (e ++ [last]) ⟨last.row + 0, last.col + -1⟩ (d.Filter w)
          hs2 hnd1 hin1 hfuel2
        obtain ⟨r3, h3, c3⟩ := ih (e ++ [last]) ⟨last.row + 1, last.col + 0⟩ (d.Filter w)
          hs2 hnd1 hin1 hfuel2
        obtain ⟨r4, h4, c4⟩ := ih (e ++ [last]) ⟨last.row + 0, last.col + 1⟩ (d.Filter w)
          hs2 hnd1 hin1 hfuel2
        refine ⟨⟨(if (d.Filter w).Contains w then [w] else [])
            ++ r1.emitted ++ r2.emitted ++ r3.emitted ++ r4.emitted,
          if 4 ≤ r1.signals + r2.signals + r3.signals + r4.signals then 1 else 0⟩, ?_, ?_⟩
        · rw [Wordfinder_node n e last d b w hlegal hw hF]
          unfold extend
          rw [h1, h2, h3, h4]
          rfl
        · intro t wd hnd2 hin2 hch hsp hwd
          have hwdF := hpre t wd hsp hwd
          cases t with
          | nil =>
            rw [List.append_nil] at hsp
            rw [hw] at hsp
            have hww : w = wd := Except.ok.inj hsp
            rw [← hww] at hwdF
            have hc := (Contains_iff (d.Filter w) w).mpr hwdF
            simp only [hc, if_true, List.mem_append, List.mem_singleton]
            rw [hww]; simp
          | cons c t =>
            have hadj : adjacent last c := (List.chain'_cons.mp hch).1
            have hch2 : List.Chain' adjacent (c :: t) := (List.chain'_cons.mp hch).2
            have hassoc : e ++ [last] ++ c :: t = e ++ [last] ++ [c] ++ t := by simp
            rw [hassoc] at hnd2 hin2 hsp
            simp only [List.mem_append]
            rcases adjacent_cases last c hadj with hc | hc | hc | hc
            · rw [hc] at hnd2 hin2 hsp hch2
              exact Or.inl (Or.inl (Or.inl (Or.inr (c1 t wd hnd2 hin2 hch2 hsp hwdF))))
            · rw [hc] at hnd2 hin2 hsp hch2
              exact Or.inl (Or.inl (Or.inr (c2 t wd hnd2 hin2 hch2 hsp hwdF)))
            · rw [hc] at hnd2 hin2 hsp hch2
              exact Or.inl (Or.inr (c3 t wd hnd2 hin2 hch2 hsp hwdF))
            · rw [hc] at hnd2 hin2 hsp hch2
              exact Or.inr (c4 t wd hnd2 hin2 hch2 hsp hwdF)

/-- C1: on a rectangular grid with `C` columns and a word list sorted ascending
lexicographically, the task started with the single-cell path `[c]` of an in-bounds cell
`c` and the full word list finishes (fuel above the number of cells is enough) and emits
every word-list entry spelled by some path that begins at `c` and whose cells are all in
bounds, pairwise distinct and consecutively orthogonally adjacent. -/
theorem Wordfinder_complete (b : board) (C : Nat) (d : dictionary) (c : cell) (fuel : Nat)
    (hrect : rectangular b C) (hs : sortedAsc d) (hc : inBounds b.length C c)
    (hfuel : b.length * C < fuel) :
    ∃ r, Wordfinder fuel [c] d b = .ok r ∧
      ∀ (q : path) (w : GoString), q.head? = some c → q.Nodup →
        (∀ x ∈ q, inBounds b.length C x) → List.Chain' adjacent q →
        spell b q = .ok w → w ∈ d → w ∈ r.emitted := by
  obtain ⟨r, hr, hall⟩ := complete_aux b C hrect fuel [] c d hs List.nodup_nil
    (by simp) (by simpa using hfuel)
  refine ⟨r, hr, ?_⟩
  intro q w hq hnd hin hch hsp hw
  cases q with
  | nil => simp at hq
  | cons c0 t =>
    simp only [List.head?_cons, Option.some.injEq] at hq
    subst hq
    exact hall t w hnd hin hch hsp hw

/-- Witness for C1: on the grid `c a / t s` with the sorted word list `["cas", "cat"]`,
the root task of cell `(0,0)` emits `"cas"`, spelled by `(0,0), (0,1), (1,1)`. -/
theorem Wordfinder_complete_witness :
    ∃ r, Wordfinder 5 [⟨0, 0⟩] ["cas".toList, "cat".toList]
        [["c".toList, "a".toList], ["t".toList, "s".toList]] = .ok r ∧
      "cas".toList ∈ r.emitted :=
  match Wordfinder_complete [["c".toList, "a".toList], ["t".toList, "s".toList]] 2
      ["cas".toList, "cat".toList] ⟨0, 0⟩ 5 (by decide) (by decide) (by decide) (by decide) with
  | ⟨r, hr, hall⟩ =>
    ⟨r, hr, hall [⟨0, 0⟩, ⟨0, 1⟩, ⟨1, 1⟩] "cas".toList rfl (by decide) (by decide)
      (List.chain'_cons.mpr ⟨by decide, List.chain'_cons.mpr ⟨by decide,
        List.chain'_singleton _⟩⟩)
      (by rfl) (by decide)⟩

/-! ## LongestNWords -/

theorem insert_eq_take (w : GoString) : ∀ L : List GoString,
    LongestNWords.insert w L = (L.orderedInsert longer w).take L.length := by
  intro L
  induction L with
  | nil => simp [LongestNWords.insert]
  | cons x rest ih =>
    unfold LongestNWords.insert
    by_cases h : w.length > x.length
    · have h2 : longer w x := h
      rw [if_pos h, List.orderedInsert, if_pos h2]
      simp [List.dropLast_eq_take]
    · have h2 : ¬ longer w x := h
      rw [if_neg h, List.orderedInsert, if_neg h2, ih]
      simp

theorem take_orderedInsert_take (w : GoString) : ∀ (M : List GoString) (k : Nat),
    ((M.take k).orderedInsert longer w).take k = (M.orderedInsert longer w).take k := by
  intro M
  induction M with
  | nil => intro k; simp
  | cons x M ih =>
    intro k
    cases k with
    | zero => simp
    | succ k =>
      rw [List.take_succ_cons]
      by_cases h : longer w x
      · rw [List.orderedInsert, if_pos h, List.orderedInsert, if_pos h]
        rw [List.take_succ_cons, List.take_succ_cons]
        congr 1
        cases k with
        | zero => simp
        | succ j =>
          rw [List.take_succ_cons, List.take_succ_cons, List.take_take]
          simp
      · rw [List.orderedInsert, if_neg h, List.orderedInsert, if_neg h]
        rw [List.take_succ_cons, List.take_succ_cons, ih k]

theorem insert_take (w : GoString) (M : List GoString) (k : Nat) (hk : k ≤ M.length) :
    LongestNWords.insert w (M.take k) = (M.orderedInsert longer w).take k := by
  rw [insert_eq_take, List.length_take, Nat.min_eq_left hk, take_orderedInsert_take]

theorem foldl_insert_take (n : Nat) : ∀ (ws T : List GoString), n ≤ T.length →
    ws.foldl (fun out w => LongestNWords.insert w out) (T.take n) = (unbounded T ws).take n := by
  intro ws
  induction ws with
  | nil => intro T _; rfl
  | cons w ws ih =>
    intro T hT
    simp only [List.foldl_cons, unbounded]
    rw [insert_take w T n hT]
    have hlen : n ≤ (T.orderedInsert longer w).length := by
      rw [List.orderedInsert_length]; omega
    exact ih _ hlen

/-- The result of `LongestNWords` is the first `n` entries of the unbounded slot array. -/
theorem LongestNWords_eq (ws : words) (n : Nat) :
    words.LongestNWords ws (n : Int) =
      .ok ((unbounded (List.replicate n []) ws).take n) := by
  unfold words.LongestNWords
  rw [if_neg (by omega)]
  have h := foldl_insert_take n ws (List.replicate n []) (by simp)
  rw [List.take_of_length_le (by simp)] at h
  simp only [Int.toNat_ofNat]
  rw [h]

theorem unbounded_perm : ∀ (ws T : List GoString), (unbounded T ws).Perm (ws ++ T) := by
  intro ws
  induction ws with
  | nil => intro T; exact List.Perm.refl _
  | cons w ws ih =>
    intro T
    simp only [unbounded, List.foldl_cons]
    refine (ih (T.orderedInsert longer w)).trans ?_
    refine (List.Perm.append_left ws (List.perm_orderedInsert longer w T)).trans ?_
    exact List.perm_middle

theorem descending_orderedInsert (w : GoString) : ∀ T : List GoString, descending T →
    descending (T.orderedInsert longer w) := by
  intro T
  induction T with
  | nil => intro _; simp [descending]
  | cons x T ih =>
    intro h
    unfold descending at h ih ⊢
    rw [List.pairwise_cons] at h
    by_cases hl : longer w x
    · rw [List.orderedInsert, if_pos hl, List.pairwise_cons, List.pairwise_cons]
      refine ⟨?_, h.1, h.2⟩
      intro y hy
      unfold longer at hl
      rcases List.mem_cons.mp hy with e | e
      · rw [e]; omega
      · have := h.1 y e; omega
    · rw [List.orderedInsert, if_neg hl, List.pairwise_cons]
      refine ⟨?_, ih h.2⟩
      intro y hy
      unfold longer at hl
      rcases (List.mem_orderedInsert longer).mp hy with e | e
      · rw [e]; omega
      · exact h.1 y e

theorem descending_unbounded : ∀ (ws T : List GoString), descending T →
    descending (unbounded T ws) := by
  intro ws
  induction ws with
  | nil => intro T h; exact h
  | cons w ws ih =>
    intro T h
    simp only [unbounded, List.foldl_cons]
    exact ih _ (descending_orderedInsert w T h)

theorem descending_replicate (n : Nat) : descending (List.replicate n []) := by
  unfold descending
  rw [List.pairwise_replicate]
  right; simp

/-- The lengths of the unbounded slot array are the input lengths sorted descending,
followed by the zeros of the initial slots. -/
theorem unbounded_lengths (ws : List GoString) (n : Nat) :
    (unbounded (List.replicate n []) ws).map List.length =
      (ws.map List.length).insertionSort geNat ++ List.replicate n 0 := by
  apply List.eq_of_perm_of_sorted (r := geNat)
  · refine ((unbounded_perm ws (List.replicate n [])).map List.length).trans ?_
    rw [List.map_append, List.map_replicate]
    exact List.Perm.append_right _ (List.perm_insertionSort geNat _).symm
  · have h := descending_unbounded ws _ (descending_replicate n)
    unfold descending at h
    unfold List.Sorted
    rw [List.pairwise_map]
    exact h
  · unfold List.Sorted
    rw [List.pairwise_append]
    refine ⟨List.sorted_insertionSort geNat _, ?_, ?_⟩
    · rw [List.pairwise_replicate]; right; unfold geNat; omega
    · intro a _ c hc
      rw [List.eq_of_mem_replicate hc]
      unfold geNat; omega

/-- C6: for every input and every `n ≥ 0`, `LongestNWords` returns slots whose lengths
are the first `n` entries of the input's word lengths sorted in descending order,
padded with zeros when the input has fewer than `n` words, and every non-empty slot is
a word of the input. -/
theorem LongestNWords_keeps_longest (ws : words) (n : Nat) :
    ∃ out, words.LongestNWords ws (n : Int) = .ok out ∧
      out.map List.length =
        ((ws.map List.length).insertionSort geNat ++ List.replicate n 0).take n ∧
      ∀ x ∈ out, x ≠ [] → x ∈ ws := by
  refine ⟨_, LongestNWords_eq ws n, ?_, ?_⟩
  · rw [List.map_take, unbounded_lengths]
  · intro x hx hne
    have h1 := (unbounded_perm ws (List.replicate n [])).subset (List.mem_of_mem_take hx)
    rcases List.mem_append.mp h1 with h | h
    · exact h
    · exact absurd (List.eq_of_mem_replicate h) hne

/-- Witness for C6: the input `["ab", "abc", "cd", "", "abcd", "x"]` with `n = 3`. -/
theorem LongestNWords_keeps_longest_witness :
    ∃ out, words.LongestNWords
        ["ab".toList, "abc".toList, "cd".toList, [], "abcd".toList, "x".toList] ((3 : Nat) : Int)
        = .ok out ∧
      out.map List.length =
        (((["ab".toList, "abc".toList, "cd".toList, [], "abcd".toList, "x".toList] : words).map
          List.length).insertionSort geNat ++ List.replicate 3 0).take 3 ∧
      ∀ x ∈ out, x ≠ [] →
        x ∈ (["ab".toList, "abc".toList, "cd".toList, [], "abcd".toList, "x".toList] : words) :=
  LongestNWords_keeps_longest
    ["ab".toList, "abc".toList, "cd".toList, [], "abcd".toList, "x".toList] 3

theorem descending_insert (w : GoString) (out : List GoString) (h : descending out) :
    descending (LongestNWords.insert w out) := by
  rw [insert_eq_take]
  exact List.Pairwise.sublist (List.take_sublist _ _) (descending_orderedInsert w out h)

theorem descending_adjacent (out : List GoString) (h : descending out) (i : Nat)
    (x y : GoString) (hx : out[i]? = some x) (hy : out[i + 1]? = some y) :
    y.length ≤ x.length := by
  unfold descending at h
  rw [List.pairwise_iff_getElem] at h
  obtain ⟨hi, hxe⟩ := List.getElem?_eq_some.mp hx
  obtain ⟨hj, hye⟩ := List.getElem?_eq_some.mp hy
  rw [← hxe, ← hye]
  exact h i (i + 1) hi hj (by omega)

/-- C7: adjacent slots are ordered by descending length, `len(out[i]) ≥ len(out[i+1])`,
and this is an invariant of the insertion loop: the initial slots satisfy it, one
insertion keeps it for any slot array that satisfies it, and so it holds for the slots
after each processed input word (the slots after `k` words are the result on the first
`k` words), in particular for the returned result. -/
theorem LongestNWords_ordered (ws : words) (n : Nat) :
    (∀ (out : List GoString) (w : GoString),
      (∀ i x y, out[i]? = some x → out[i + 1]? = some y → y.length ≤ x.length) →
      ∀ i x y, (LongestNWords.insert w out)[i]? = some x →
        (LongestNWords.insert w out)[i + 1]? = some y → y.length ≤ x.length) ∧
    ∀ k, ∃ out, words.LongestNWords (ws.take k) (n : Int) = .ok out ∧
      ∀ i x y, out[i]? = some x → out[i + 1]? = some y → y.length ≤ x.length := by
  constructor
  · intro out w hadj
    have hd : descending out := by
      unfold descending
      have hch : List.Chain' (fun x y : GoString => y.length ≤ x.length) out := by
        rw [List.chain'_iff_get]
        intro i hi
        apply hadj i
        · rw [List.getElem?_eq_getElem (by omega)]; rfl
        · rw [List.getElem?_eq_getElem (by omega)]; rfl
      haveI : IsTrans GoString (fun x y : GoString => y.length ≤ x.length) :=
        ⟨fun a b c h1 h2 => le_trans h2 h1⟩
      exact List.chain'_iff_pairwise.mp hch
    exact descending_adjacent _ (descending_insert w out hd)
  · intro k
    refine ⟨_, LongestNWords_eq (ws.take k) n, ?_⟩
    apply descending_adjacent
    exact List.Pairwise.sublist (List.take_sublist _ _)
      (descending_unbounded _ _ (descending_replicate n))

/-- Witness for C7: the slots after the first two words of `["ab", "abc", "cd"]`, `n = 3`. -/
theorem LongestNWords_ordered_witness :
    ∃ out, words.LongestNWords
        ((["ab".toList, "abc".toList, "cd".toList] : words).take 2) ((3 : Nat) : Int) = .ok out ∧
      ∀ i x y, out[i]? = some x → out[i + 1]? = some y → y.length ≤ x.length :=
  (LongestNWords_ordered ["ab".toList, "abc".toList, "cd".toList] 3).2 2

theorem unbounded_append (T a c : List GoString) :
    unbounded T (a ++ c) = unbounded (unbounded T a) c := by
  unfold unbounded
  rw [List.foldl_append]

theorem sublist_unbounded : ∀ (ws T : List GoString), List.Sublist T (unbounded T ws) := by
  intro ws
  induction ws with
  | nil => intro T; exact List.Sublist.refl _
  | cons w ws ih =>
    intro T
    simp only [unbounded, List.foldl_cons]
    exact (List.sublist_orderedInsert (r := longer) w T).trans (ih _)

/-- A word inserted after an equally long word that is already stored lands behind it. -/
theorem pair_sublist_orderedInsert (u v : GoString) (hlen : u.length = v.length) :
    ∀ T : List GoString, descending T → u ∈ T → List.Sublist [u, v] (T.orderedInsert longer v) := by
  intro T
  induction T with
  | nil => intro _ hu; simp at hu
  | cons x T ih =>
    intro hd hu
    unfold descending at hd ih
    rw [List.pairwise_cons] at hd
    by_cases hl : longer v x
    · exfalso
      unfold longer at hl
      rcases List.mem_cons.mp hu with e | e
      · rw [e] at hlen; omega
      · have := hd.1 u e; omega
    · rw [List.orderedInsert, if_neg hl]
      rcases List.mem_cons.mp hu with e | e
      · rw [e]
        apply List.Sublist.cons₂
        rw [List.singleton_sublist]
        exact (List.mem_orderedInsert longer).mpr (Or.inl rfl)
      · exact List.Sublist.cons _ (ih hd.2 e)

theorem pair_sublist_split (u v : GoString) : ∀ T : List GoString, List.Sublist [u, v] T →
    ∃ A B, T = A ++ u :: B ∧ v ∈ B := by
  intro T
  induction T with
  | nil => intro h; simp at h
  | cons x T ih =>
    intro h
    cases h with
    | cons _ h2 =>
      obtain ⟨A, B, hT, hv⟩ := ih h2
      exact ⟨x :: A, B, by rw [hT]; rfl, hv⟩
    | cons₂ _ h2 =>
      exact ⟨[], T, rfl, List.singleton_sublist.mp h2⟩

/-- C8: for an input of pairwise distinct words in which `u` occurs before `v` and both
have the same length, if `v` is in the result of `LongestNWords` at slot `j`, then `u` is in
the result too, at a smaller slot index. -/
theorem LongestNWords_tie_break (P Q S : List GoString) (u v : GoString) (n : Nat)
    (out : words) (hnd : (P ++ u :: Q ++ v :: S).Nodup) (hlen : u.length = v.length)
    (hout : words.LongestNWords (P ++ u :: Q ++ v :: S) (n : Int) = .ok out)
    (j : Nat) (hj : out[j]? = some v) :
    ∃ i, i < j ∧ out[i]? = some u := by
  rw [LongestNWords_eq] at hout
  have hout2 := (Except.ok.inj hout).symm
  have huv : u ≠ v := by
    intro e
    have h1 := (List.nodup_append.mp hnd).2.2
    exact h1 (a := u) (by simp) (by rw [e]; simp)
  have hvne : v ≠ [] := by
    intro e
    rw [e] at hlen
    exact huv (by rw [e]; exact List.length_eq_zero.mp hlen)
  have hsplit : P ++ u :: Q ++ v :: S = (P ++ u :: Q) ++ ([v] ++ S) := by simp
  have hU : unbounded (List.replicate n []) (P ++ u :: Q ++ v :: S) =
      unbounded ((unbounded (List.replicate n []) (P ++ u :: Q)).orderedInsert longer v) S := by
    rw [hsplit, unbounded_append, unbounded_append]
    rfl
  have hT1d := descending_unbounded (P ++ u :: Q) _ (descending_replicate n)
  have hT1u : u ∈ unbounded (List.replicate n []) (P ++ u :: Q) :=
    (unbounded_perm (P ++ u :: Q) _).symm.subset (by simp)
  have hsub : List.Sublist [u, v] (unbounded (List.replicate n []) (P ++ u :: Q ++ v :: S)) := by
    rw [hU]
    exact (pair_sublist_orderedInsert u v hlen _ hT1d hT1u).trans (sublist_unbounded S _)
  obtain ⟨A, B, hAB, hvB⟩ := pair_sublist_split u v _ hsub
  have hvA : v ∉ A := by
    intro hA
    have hp := (unbounded_perm (P ++ u :: Q ++ v :: S) (List.replicate n [])).filter
      (fun x : GoString => decide (x ≠ []))
    have hnd2 : ((P ++ u :: Q ++ v :: S ++ List.replicate n []).filter
        (fun x : GoString => decide (x ≠ []))).Nodup := by
      rw [List.filter_append]
      have hz : (List.replicate n ([] : GoString)).filter
          (fun x : GoString => decide (x ≠ [])) = [] := by
        rw [List.filter_eq_nil_iff]
        intro x hx
        rw [List.eq_of_mem_replicate hx]
        simp
      rw [hz, List.append_nil]
      exact hnd.filter _
    have hnd3 := hp.nodup_iff.mpr hnd2
    rw [hAB, List.filter_append] at hnd3
    have hdis := (List.nodup_append.mp hnd3).2.2
    refine hdis (a := v) (List.mem_filter.mpr ⟨hA, by simpa using hvne⟩)
      (List.mem_filter.mpr ⟨List.mem_cons_of_mem _ hvB, by simpa using hvne⟩)
  rw [hout2, List.getElem?_take] at hj
  split at hj
  · next hjn =>
    rw [hAB] at hj
    have hjA : A.length < j := by
      rcases Nat.lt_trichotomy j A.length with h | h | h
      · rw [List.getElem?_append_left h] at hj
        exact absurd (List.getElem?_mem hj) hvA
      · rw [List.getElem?_append_right (by omega), h] at hj
        simp at hj
        exact absurd hj huv
      · exact h
    refine ⟨A.length, hjA, ?_⟩
    rw [hout2, List.getElem?_take, if_pos (by omega), hAB,
      List.getElem?_append_right (le_refl _)]
    simp
  · simp at hj

/-- Witness for C8: on the input `["ab", "abc", "cd"]` with `n = 3` the result is
`["abc", "ab", "cd"]`; `"cd"` sits at slot 2 and the earlier `"ab"` at a smaller index. -/
theorem LongestNWords_tie_break_witness :
    ∃ i, i < 2 ∧ (["abc".toList, "ab".toList, "cd".toList] : words)[i]? = some "ab".toList :=
  LongestNWords_tie_break [] ["abc".toList] [] "ab".toList "cd".toList 3
    ["abc".toList, "ab".toList, "cd".toList] (by decide) (by decide) (by rfl) 2 (by rfl)

theorem LongestNWords_length (ws : words) (n : Nat) :
    ((unbounded (List.replicate n []) ws).take n).length = n := by
  rw [List.length_take, (unbounded_perm ws (List.replicate n [])).length_eq]
  simp

/-- C9: for every `n ≥ 0` and every input, `LongestNWords` returns (it does not fail)
exactly `n` slots; when the input consists of `k < n` non-empty words, the first `k` slots
are non-empty and the trailing `n - k` slots are empty strings. -/
theorem LongestNWords_padding (ws : words) (n : Nat) :
    ∃ out, words.LongestNWords ws (n : Int) = .ok out ∧ out.length = n ∧
      (ws.length < n → (∀ w ∈ ws, w ≠ []) →
        (∀ i, i < ws.length → ∃ x, out[i]? = some x ∧ x ≠ []) ∧
        (∀ i, ws.length ≤ i → i < n → out[i]? = some [])) := by
  refine ⟨_, LongestNWords_eq ws n, LongestNWords_length ws n, ?_⟩
  intro hk hne
  have hlen := LongestNWords_length ws n
  have hmap : ((unbounded (List.replicate n []) ws).take n).map List.length =
      ((ws.map List.length).insertionSort geNat ++ List.replicate n 0).take n := by
    rw [List.map_take, unbounded_lengths]
  have hS : ((ws.map List.length).insertionSort geNat).length = ws.length := by
    rw [List.length_insertionSort, List.length_map]
  generalize (unbounded (List.replicate n []) ws).take n = out at hlen hmap ⊢
  have hget : ∀ i, i < n → ∃ x, out[i]? = some x ∧
      ((ws.map List.length).insertionSort geNat ++ List.replicate n 0)[i]? = some x.length := by
    intro i hi
    have hi2 : i < out.length := by omega
    refine ⟨_, List.getElem?_eq_getElem hi2, ?_⟩
    have h1 := congrArg (fun l => l[i]?) hmap
    simp only [List.getElem?_map, List.getElem?_take, if_pos hi] at h1
    rw [List.getElem?_eq_getElem hi2] at h1
    exact h1.symm
  constructor
  · intro i hi
    obtain ⟨x, hx, hxl⟩ := hget i (by omega)
    refine ⟨x, hx, ?_⟩
    rw [List.getElem?_append_left (by omega)] at hxl
    have hmem := List.getElem?_mem hxl
    rw [List.mem_insertionSort, List.mem_map] at hmem
    obtain ⟨w, hw, hwl⟩ := hmem
    intro hx0
    rw [hx0] at hwl
    exact hne w hw (List.length_eq_zero.mp hwl)
  · intro i hi hin
    obtain ⟨x, hx, hxl⟩ := hget i hin
    rw [List.getElem?_append_right (by omega), List.getElem?_replicate] at hxl
    split at hxl
    · rw [hx]
      have h0 : x.length = 0 := (Option.some.inj hxl).symm
      rw [List.length_eq_zero.mp h0]
    · simp at hxl

/-- Witness for C9: two non-empty words and `n = 4` slots. -/
theorem LongestNWords_padding_witness :
    ∃ out, words.LongestNWords ["ab".toList, "abc".toList] ((4 : Nat) : Int) = .ok out ∧
      out.length = 4 ∧
      (∀ i, i < 2 → ∃ x, out[i]? = some x ∧ x ≠ []) ∧
      (∀ i, 2 ≤ i → i < 4 → out[i]? = some []) :=
  match LongestNWords_padding ["ab".toList, "abc".toList] 4 with
  | ⟨out, h1, h2, h3⟩ => ⟨out, h1, h2, h3 (by decide) (by decide)⟩

/-! ## RemoveDuplicates -/

theorem uniques_spec : ∀ (l keys : List GoString), keys.Nodup →
    (RemoveDuplicates.uniques l keys).Nodup ∧
    ∀ x, x ∈ RemoveDuplicates.uniques l keys ↔ x ∈ keys ∨ x ∈ l := by
  intro l
  induction l with
  | nil => intro keys h; simp [RemoveDuplicates.uniques, h]
  | cons w rest ih =>
    intro keys h
    unfold RemoveDuplicates.uniques
    by_cases hw : w ∈ keys
    · rw [if_pos hw]
      refine ⟨(ih keys h).1, ?_⟩
      intro x
      rw [(ih keys h).2 x, List.mem_cons]
      constructor
      · rintro (h1 | h1)
        · exact Or.inl h1
        · exact Or.inr (Or.inr h1)
      · rintro (h1 | h1 | h1)
        · exact Or.inl h1
        · rw [h1]; exact Or.inl hw
        · exact Or.inr h1
    · rw [if_neg hw]
      have h2 : (keys ++ [w]).Nodup := by
        rw [List.nodup_append]
        refine ⟨h, List.nodup_singleton _, ?_⟩
        intro x hx hx2
        rw [List.mem_singleton] at hx2
        rw [hx2] at hx
        exact hw hx
      refine ⟨(ih _ h2).1, ?_⟩
      intro x
      rw [(ih _ h2).2 x, List.mem_append, List.mem_singleton, List.mem_cons]
      constructor
      · rintro ((h1 | h1) | h1)
        · exact Or.inl h1
        · exact Or.inr (Or.inl h1)
        · exact Or.inr (Or.inr h1)
      · rintro (h1 | h1 | h1)
        · exact Or.inl (Or.inl h1)
        · exact Or.inl (Or.inr h1)
        · exact Or.inr h1

/-- C10: whatever order the map is visited in (any rearrangement `order` of its keys),
`RemoveDuplicates` returns the distinct values of its input: the result contains no
value twice, a string occurs in the result if and only if it occurs in the input, and
the length of the result is the number of distinct input values. -/
theorem RemoveDuplicates_distinct (order : List GoString → List GoString)
    (horder : ∀ l, (order l).Perm l) (inp : words) :
    (words.RemoveDuplicates order inp).Nodup ∧
    (∀ x, x ∈ words.RemoveDuplicates order inp ↔ x ∈ inp) ∧
    (words.RemoveDuplicates order inp).length = inp.toFinset.card := by
  have hu := uniques_spec inp [] List.nodup_nil
  have hp := horder (RemoveDuplicates.uniques inp [])
  have hnd : (words.RemoveDuplicates order inp).Nodup := hp.nodup_iff.mpr hu.1
  have hmem : ∀ x, x ∈ words.RemoveDuplicates order inp ↔ x ∈ inp := by
    intro x
    unfold words.RemoveDuplicates
    rw [hp.mem_iff, hu.2 x]
    simp
  refine ⟨hnd, hmem, ?_⟩
  rw [← List.toFinset_card_of_nodup hnd]
  congr 1
  ext x
  rw [List.mem_toFinset, List.mem_toFinset]
  exact hmem x

/-- Witness for C10: the input `["ab", "abc", "ab"]`, with the map visited in insertion
order. -/
theorem RemoveDuplicates_distinct_witness :
    (words.RemoveDuplicates id ["ab".toList, "abc".toList, "ab".toList]).Nodup ∧
    (∀ x, x ∈ words.RemoveDuplicates id ["ab".toList, "abc".toList, "ab".toList] ↔
      x ∈ ["ab".toList, "abc".toList, "ab".toList]) ∧
    (words.RemoveDuplicates id ["ab".toList, "abc".toList, "ab".toList]).length =
      (["ab".toList, "abc".toList, "ab".toList] : words).toFinset.card :=
  RemoveDuplicates_distinct id (fun l => List.Perm.refl l)
    ["ab".toList, "abc".toList, "ab".toList]

theorem mem_RemoveDuplicates (order : List GoString → List GoString)
    (horder : ∀ l, (order l).Perm l) (inp : words) (x : GoString) :
    x ∈ words.RemoveDuplicates order inp ↔ x ∈ inp := by
  unfold words.RemoveDuplicates
  rw [(horder _).mem_iff, (uniques_spec inp [] List.nodup_nil).2 x]
  simp

theorem nodup_RemoveDuplicates (order : List GoString → List GoString)
    (horder : ∀ l, (order l).Perm l) (inp : words) :
    (words.RemoveDuplicates order inp).Nodup :=
  (horder _).nodup_iff.mpr (uniques_spec inp [] List.nodup_nil).1

/-- C11: deduplicating an already deduplicated sequence changes nothing: whatever orders
the map is visited in, `RemoveDuplicates(RemoveDuplicates(xs))` and `RemoveDuplicates(xs)`
are the same collection of distinct values (each is duplicate-free and one is a
rearrangement of the other). -/
theorem RemoveDuplicates_idempotent (o1 o2 o3 : List GoString → List GoString)
    (h1 : ∀ l, (o1 l).Perm l) (h2 : ∀ l, (o2 l).Perm l) (h3 : ∀ l, (o3 l).Perm l)
    (xs : words) :
    (words.RemoveDuplicates o2 (words.RemoveDuplicates o1 xs)).Nodup ∧
    (words.RemoveDuplicates o3 xs).Nodup ∧
    (words.RemoveDuplicates o2 (words.RemoveDuplicates o1 xs)).Perm
      (words.RemoveDuplicates o3 xs) := by
  have hn2 := nodup_RemoveDuplicates o2 h2 (words.RemoveDuplicates o1 xs)
  have hn3 := nodup_RemoveDuplicates o3 h3 xs
  refine ⟨hn2, hn3, ?_⟩
  rw [List.perm_ext_iff_of_nodup hn2 hn3]
  intro x
  rw [mem_RemoveDuplicates o2 h2, mem_RemoveDuplicates o1 h1, mem_RemoveDuplicates o3 h3]

/-- Witness for C11: the input `["ab", "abc", "ab"]`, the map visited in insertion order
the first time and in reverse insertion order the second time. -/
theorem RemoveDuplicates_idempotent_witness :
    (words.RemoveDuplicates List.reverse
      (words.RemoveDuplicates id ["ab".toList, "abc".toList, "ab".toList])).Nodup ∧
    (words.RemoveDuplicates id ["ab".toList, "abc".toList, "ab".toList]).Nodup ∧
    (words.RemoveDuplicates List.reverse
      (words.RemoveDuplicates id ["ab".toList, "abc".toList, "ab".toList])).Perm
      (words.RemoveDuplicates id ["ab".toList, "abc".toList, "ab".toList]) :=
  RemoveDuplicates_idempotent id List.reverse id (fun l => List.Perm.refl l)
    (fun l => List.reverse_perm l) (fun l => List.Perm.refl l)
    ["ab".toList, "abc".toList, "ab".toList]

/-! ## Wordfinder: completion signals and fuel -/

/-- Every task that finishes has sent exactly one `Done` on its `out` channel. -/
theorem Wordfinder_signals (b : board) : ∀ (fuel : Nat) (p : path) (d : dictionary)
    (r : Report), Wordfinder fuel p d b = .ok r → r.signals = 1 := by
  intro fuel
  induction fuel with
  | zero => intro p d r h; simp [Wordfinder] at h
  | succ n ih =>
    intro p d r h
    rcases List.eq_nil_or_concat p with hp | ⟨e, last, hp⟩
    · rw [hp] at h; exact absurd h (Wordfinder_nil _ d b r)
    · rw [hp, List.concat_eq_append] at h
      rcases Wordfinder_cases n e last d b r h with
        ⟨_, hr⟩ | ⟨_, w, _, ⟨_, hr⟩ | ⟨_, r1, r2, r3, r4, h1, h2, h3, h4, hr⟩⟩
      · rw [hr]
      · rw [hr]
      · rw [hr, ih _ _ _ h1, ih _ _ _ h2, ih _ _ _ h3, ih _ _ _ h4]
        rfl

/-- A result does not depend on the fuel that was left over. -/
theorem Wordfinder_fuel_succ (b : board) : ∀ (fuel : Nat) (p : path) (d : dictionary)
    (r : Report), Wordfinder fuel p d b = .ok r → Wordfinder (fuel + 1) p d b = .ok r := by
  intro fuel
  induction fuel with
  | zero => intro p d r h; simp [Wordfinder] at h
  | succ n ih =>
    intro p d r h
    rcases List.eq_nil_or_concat p with hp | ⟨e, last, hp⟩
    · rw [hp] at h; exact absurd h (Wordfinder_nil _ d b r)
    · rw [hp, List.concat_eq_append] at h ⊢
      rcases Wordfinder_cases n e last d b r h with
        ⟨hL, hr⟩ | ⟨hL, w, hw, ⟨hF, hr⟩ | ⟨hF, r1, r2, r3, r4, h1, h2, h3, h4, hr⟩⟩
      · rw [hr]; exact Wordfinder_illegal _ _ d b hL
      · rw [hr]; exact Wordfinder_pruned _ _ d b w hL hw hF
      · rw [Wordfinder_node (n + 1) e last d b w hL hw hF,
          ih _ _ _ h1, ih _ _ _ h2, ih _ _ _ h3, ih _ _ _ h4, hr]
        rfl

theorem Wordfinder_fuel_le (b : board) (p : path) (d : dictionary) (r : Report) :
    ∀ (n m : Nat), n ≤ m → Wordfinder n p d b = .ok r → Wordfinder m p d b = .ok r := by
  intro n m hnm h
  induction m with
  | zero =>
    have : n = 0 := by omega
    rw [this] at h; exact h
  | succ k ih =>
    rcases Nat.eq_or_lt_of_le hnm with e | e
    · rw [← e]; exact h
    · exact Wordfinder_fuel_succ b k p d r (ih (by omega))

/-- Two finished runs of the same task agree, whatever fuel they were given. -/
theorem Wordfinder_fuel_unique (b : board) (p : path) (d : dictionary) (r1 r2 : Report)
    (n m : Nat) (h1 : Wordfinder n p d b = .ok r1) (h2 : Wordfinder m p d b = .ok r2) :
    r1 = r2 := by
  rcases Nat.le_total n m with h | h
  · have := Wordfinder_fuel_le b p d r1 n m h h1
    rw [h2] at this
    exact (Except.ok.inj this).symm
  · have := Wordfinder_fuel_le b p d r2 m n h h2
    rw [h1] at this
    exact Except.ok.inj this

/-! ## The root level of `main` -/

theorem runRoots_nil (fuel : Nat) (d : dictionary) (b : board) :
    runRoots fuel d b [] = .ok ⟨[], 0⟩ := rfl

theorem runRoots_cons_ok (fuel : Nat) (d : dictionary) (b : board) (p : path)
    (rest : List path) (r rs : Report) (h1 : Wordfinder fuel p d b = .ok r)
    (h2 : runRoots fuel d b rest = .ok rs) :
    runRoots fuel d b (p :: rest) =
      .ok ⟨r.emitted ++ rs.emitted, r.signals + rs.signals⟩ := by
  rw [runRoots]
  simp [bind, Except.bind, h1, h2, pure, Except.pure]

/-- A finished root level: every root task finished, and the report adds theirs up. -/
theorem runRoots_cons_cases (fuel : Nat) (d : dictionary) (b : board) (p : path)
    (rest : List path) (t : Report) (h : runRoots fuel d b (p :: rest) = .ok t) :
    ∃ r rs, Wordfinder fuel p d b = .ok r ∧ runRoots fuel d b rest = .ok rs ∧
      t = ⟨r.emitted ++ rs.emitted, r.signals + rs.signals⟩ := by
  cases h1 : Wordfinder fuel p d b with
  | error x =>
    rw [runRoots] at h
    simp [bind, Except.bind, h1] at h
  | ok r =>
    cases h2 : runRoots fuel d b rest with
    | error x =>
      rw [runRoots] at h
      simp [bind, Except.bind, h1, h2] at h
    | ok rs =>
      rw [runRoots_cons_ok fuel d b p rest r rs h1 h2] at h
      exact ⟨r, rs, rfl, rfl, (Except.ok.inj h).symm⟩

theorem runRoots_signals (fuel : Nat) (d : dictionary) (b : board) :
    ∀ (ps : List path) (t : Report), runRoots fuel d b ps = .ok t →
      t.signals = ps.length := by
  intro ps
  induction ps with
  | nil => intro t h; rw [runRoots_nil] at h; rw [← Except.ok.inj h]; rfl
  | cons p rest ih =>
    intro t h
    obtain ⟨r, rs, h1, h2, ht⟩ := runRoots_cons_cases fuel d b p rest t h
    rw [ht, List.length_cons]
    simp only
    rw [Wordfinder_signals b fuel p d r h1, ih rs h2]
    omega

theorem runRoots_fuel_le (d : dictionary) (b : board) (n m : Nat) (hnm : n ≤ m) :
    ∀ (ps : List path) (t : Report), runRoots n d b ps = .ok t → runRoots m d b ps = .ok t := by
  intro ps
  induction ps with
  | nil => intro t h; rw [runRoots_nil] at h ⊢; exact h
  | cons p rest ih =>
    intro t h
    obtain ⟨r, rs, h1, h2, ht⟩ := runRoots_cons_cases n d b p rest t h
    rw [runRoots_cons_ok m d b p rest r rs (Wordfinder_fuel_le b p d r n m hnm h1) (ih rs h2), ht]

theorem runRoots_fuel_unique (d : dictionary) (b : board) (ps : List path) (t1 t2 : Report)
    (n m : Nat) (h1 : runRoots n d b ps = .ok t1) (h2 : runRoots m d b ps = .ok t2) :
    t1 = t2 := by
  rcases Nat.le_total n m with h | h
  · have := runRoots_fuel_le d b n m h ps t1 h1
    rw [h2] at this
    exact (Except.ok.inj this).symm
  · have := runRoots_fuel_le d b m n h ps t2 h2
    rw [h1] at this
    exact Except.ok.inj this

theorem rootLoop_true : ∀ (arriving : Nat) (workersRemaining : Int),
    1 ≤ arriving → workersRemaining ≤ (arriving : Int) →
    rootLoop arriving workersRemaining = true := by
  intro arriving
  induction arriving with
  | zero => intro w h; omega
  | succ k ih =>
    intro w _ hw
    unfold rootLoop
    by_cases h : w > 1
    · rw [if_pos h]
      exact ih (w - 1) (by omega) (by omega)
    · rw [if_neg h]

theorem length_rootPaths (b : board) : (rootPaths b).length = b.length * b.length := by
  unfold rootPaths
  rw [List.length_flatMap]
  have hconst : (List.length ∘ fun (i : Nat) =>
      List.map (fun (j : Nat) => [(⟨(i : Int), (j : Int)⟩ : cell)]) (List.range b.length)) =
      fun _ => b.length := by
    funext i
    simp
  rw [hconst, List.map_const', List.sum_replicate, List.length_range, smul_eq_mul]

theorem mem_rootPaths (b : board) (p : path) :
    p ∈ rootPaths b ↔ ∃ i j : Nat, i < b.length ∧ j < b.length ∧ p = [⟨(i : Int), (j : Int)⟩] := by
  unfold rootPaths
  simp only [List.mem_flatMap, List.mem_map, List.mem_range]
  constructor
  · rintro ⟨i, hi, j, hj, e⟩; exact ⟨i, j, hi, hj, e.symm⟩
  · rintro ⟨i, j, hi, hj, e⟩; exact ⟨i, hi, j, hj, e.symm⟩

theorem nodup_rootPaths (b : board) : (rootPaths b).Nodup := by
  unfold rootPaths
  rw [List.nodup_flatMap]
  constructor
  · intro i _
    refine (List.nodup_range b.length).map_on ?_
    intro x _ y _ hxy
    simp only [List.cons.injEq, cell.mk.injEq, and_true] at hxy
    omega
  · refine (List.nodup_range b.length).pairwise_of_forall_ne ?_
    intro i _ k _ hik
    simp only [Function.onFun]
    intro p hp1 hp2
    rw [List.mem_map] at hp1 hp2
    obtain ⟨j1, _, e1⟩ := hp1
    obtain ⟨j2, _, e2⟩ := hp2
    rw [← e2] at e1
    simp only [List.cons.injEq, cell.mk.injEq, and_true] at e1
    omega

theorem readAnswer_nil (race : Race) : readAnswer race [] = .ok [] := by
  cases race <;> rfl

theorem readAnswer_mem (race : Race) (sent seen : words) (h : readAnswer race sent = .ok seen) :
    ∀ x ∈ seen, x ∈ sent := by
  cases sent with
  | nil =>
    rw [readAnswer_nil] at h
    rw [← Except.ok.inj h]
    simp
  | cons a rest =>
    cases race with
    | settled =>
      simp only [readAnswer] at h
      rw [← Except.ok.inj h]
      exact fun x hx => hx
    | pending k =>
      simp only [readAnswer] at h
      rw [← Except.ok.inj h]
      exact fun x hx => (List.eraseIdx_sublist _ k).subset hx
    | torn => simp [readAnswer] at h

/-- On a board with at least one row whose root tasks have finished, `main` leaves its
loop and goes on to read `answer`. -/
theorem main_of_runRoots (order : List GoString → List GoString) (race : Race) (fuel : Nat)
    (d : dictionary) (b : board) (t : Report)
    (ht : runRoots fuel d b (rootPaths b) = .ok t) (hrows : 1 ≤ b.length) :
    main order race fuel d b =
      (readAnswer race t.emitted).bind fun seen =>
        .ok ⟨b.length * b.length, words.RemoveDuplicates order seen,
          (words.RemoveDuplicates order seen).length,
          (unbounded (List.replicate 10 []) (words.RemoveDuplicates order seen)).take 10⟩ := by
  have hsig := runRoots_signals fuel d b _ t ht
  have hlen := length_rootPaths b
  have hpos : 1 ≤ b.length * b.length := Nat.mul_pos hrows hrows
  have hloop : rootLoop t.signals ((rootPaths b).length : Int) = true :=
    rootLoop_true _ _ (by omega) (by omega)
  have hten : ((10 : Nat) : Int) = 10 := rfl
  unfold main
  simp only [bind, Except.bind, ht, hloop]
  cases hr : readAnswer race t.emitted with
  | error e => simp
  | ok seen =>
    have hlong := LongestNWords_eq (words.RemoveDuplicates order seen) 10
    rw [hten] at hlong
    simp only [hlong, pure, Except.pure]
    simp [hlen]

/-- On the board without rows `main` starts no task, no `Done` ever arrives, and `main`
blocks for ever in `for _ = range done`. -/
theorem main_empty_board (order : List GoString → List GoString) (race : Race) (fuel : Nat)
    (d : dictionary) : main order race fuel d [] = .error .deadlock := by
  rfl

theorem RemoveDuplicates_nil (order : List GoString → List GoString)
    (horder : ∀ l, (order l).Perm l) : words.RemoveDuplicates order [] = [] :=
  List.perm_nil.mp (horder [])

theorem RemoveDuplicates_singleton (order : List GoString → List GoString)
    (horder : ∀ l, (order l).Perm l) (w : GoString) :
    words.RemoveDuplicates order [w] = [w] :=
  List.perm_singleton.mp (horder [w])

/-- C12: on the grid `c a / t s` with the word list `["cas", "cat"]`, the path
`(0,0), (0,1), (1,1)` spells `"cas"` and its task, handed the list `["cas", "cat"]` by its
parent, emits `"cas"`; there are four root tasks and, whenever they finish, the words
emitted by them and their descendants are exactly `"cas"`, so `"cat"` is never emitted.
What `main` then reports depends on its unsynchronised read of `answer`: when the
collecting goroutine has appended `"cas"` in time, the deduplicated answer is `["cas"]`
and the found-word count 1, as the scenario expects; when it has not, `main` reads the
empty slice and reports the count 0; when the read is torn, the run crashes. -/
theorem scenario_cas_cat (order : List GoString → List GoString)
    (horder : ∀ l, (order l).Perm l) :
    spell [["c".toList, "a".toList], ["t".toList, "s".toList]] [⟨0, 0⟩, ⟨0, 1⟩, ⟨1, 1⟩]
      = .ok "cas".toList ∧
    subdictAfter [["c".toList, "a".toList], ["t".toList, "s".toList]] [⟨0, 0⟩]
      ["cas".toList, "cat".toList] [⟨0, 1⟩] = .ok ["cas".toList, "cat".toList] ∧
    Wordfinder 3 [⟨0, 0⟩, ⟨0, 1⟩, ⟨1, 1⟩] ["cas".toList, "cat".toList]
      [["c".toList, "a".toList], ["t".toList, "s".toList]] = .ok ⟨["cas".toList], 1⟩ ∧
    rootPaths [["c".toList, "a".toList], ["t".toList, "s".toList]]
      = [[⟨0, 0⟩], [⟨0, 1⟩], [⟨1, 0⟩], [⟨1, 1⟩]] ∧
    (∀ fuel t, runRoots fuel ["cas".toList, "cat".toList]
        [["c".toList, "a".toList], ["t".toList, "s".toList]]
        (rootPaths [["c".toList, "a".toList], ["t".toList, "s".toList]]) = .ok t →
      t.emitted = ["cas".toList] ∧ "cas".toList ∈ t.emitted ∧ "cat".toList ∉ t.emitted) ∧
    (∀ fuel, 5 ≤ fuel →
      main order Race.settled fuel ["cas".toList, "cat".toList]
        [["c".toList, "a".toList], ["t".toList, "s".toList]]
      = .ok ⟨4, ["cas".toList], 1, "cas".toList :: List.replicate 9 []⟩) ∧
    (∀ fuel, 5 ≤ fuel →
      main order (Race.pending 0) fuel ["cas".toList, "cat".toList]
        [["c".toList, "a".toList], ["t".toList, "s".toList]]
      = .ok ⟨4, [], 0, List.replicate 10 []⟩) ∧
    (∀ fuel, 5 ≤ fuel →
      main order Race.torn fuel ["cas".toList, "cat".toList]
        [["c".toList, "a".toList], ["t".toList, "s".toList]]
      = .error .panic) := by
  have h5 : runRoots 5 ["cas".toList, "cat".toList]
      [["c".toList, "a".toList], ["t".toList, "s".toList]]
      (rootPaths [["c".toList, "a".toList], ["t".toList, "s".toList]])
      = .ok ⟨["cas".toList], 4⟩ := by rfl
  refine ⟨by rfl, by rfl, by rfl, by rfl, ?_, ?_, ?_, ?_⟩
  · intro fuel t ht
    have := runRoots_fuel_unique _ _ _ _ _ _ _ ht h5
    rw [this]
    exact ⟨rfl, by decide, by decide⟩
  · intro fuel hfuel
    have hf := runRoots_fuel_le _ _ 5 fuel hfuel _ _ h5
    rw [main_of_runRoots order Race.settled fuel _ _ _ hf (by decide)]
    simp only [readAnswer, Except.bind, RemoveDuplicates_singleton order horder]
    rfl
  · intro fuel hfuel
    have hf := runRoots_fuel_le _ _ 5 fuel hfuel _ _ h5
    rw [main_of_runRoots order (Race.pending 0) fuel _ _ _ hf (by decide)]
    simp only [readAnswer, List.eraseIdx, Except.bind, RemoveDuplicates_nil order horder]
    rfl
  · intro fuel hfuel
    have hf := runRoots_fuel_le _ _ 5 fuel hfuel _ _ h5
    rw [main_of_runRoots order Race.torn fuel _ _ _ hf (by decide)]
    rfl

/-- Witness for C12: the map visited in insertion order and fuel 5; the read of `answer`
comes before the collecting goroutine has appended `"cas"`, and the count is 0. -/
theorem scenario_cas_cat_witness :
    main id (Race.pending 0) 5 ["cas".toList, "cat".toList]
        [["c".toList, "a".toList], ["t".toList, "s".toList]]
      = .ok ⟨4, [], 0, List.replicate 10 []⟩ :=
  (scenario_cas_cat id (fun l => List.Perm.refl l)).2.2.2.2.2.2.1 5 (le_refl 5)

/-- C13: on the single-cell grid `[["a"]]` with the lines `"a"` and `"an"` read from the
word file, the length filter of the ingestion leaves an empty word list; `main` starts
exactly one root task; that task is legal, spells `"a"`, gets an empty filter result and
so finishes at the filtering step without starting a child (fuel 1 is enough) and without
emitting a word; the found-word count is 0, however the read of `answer` falls (no word
is sent, so `answer` is never written). -/
theorem scenario_single_cell (lower : GoString → GoString)
    (ha : lower "a".toList = "a".toList) (han : lower "an".toList = "an".toList)
    (order : List GoString → List GoString) (horder : ∀ l, (order l).Perm l) :
    ingest lower ["a".toList, "an".toList] [] = [] ∧
    rootPaths [["a".toList]] = [[⟨0, 0⟩]] ∧
    board.IsLegal [["a".toList]] [⟨0, 0⟩] = .ok true ∧
    spell [["a".toList]] [⟨0, 0⟩] = .ok "a".toList ∧
    dictionary.Filter (ingest lower ["a".toList, "an".toList] []) "a".toList = [] ∧
    (∀ fuel, Wordfinder (fuel + 1) [⟨0, 0⟩] (ingest lower ["a".toList, "an".toList] [])
        [["a".toList]] = .ok ⟨[], 1⟩) ∧
    (∀ fuel, explore (fuel + 1) [⟨0, 0⟩] (ingest lower ["a".toList, "an".toList] [])
        [["a".toList]] = .ok (⟨[], 1⟩, [[⟨0, 0⟩]])) ∧
    (∀ race fuel, main order race (fuel + 1) (ingest lower ["a".toList, "an".toList] [])
        [["a".toList]] = .ok ⟨1, [], 0, List.replicate 10 []⟩) := by
  have hing : ingest lower ["a".toList, "an".toList] [] = [] := by
    simp only [ingest, ha, han]
    rfl
  have hroot : ∀ fuel, Wordfinder (fuel + 1) [⟨0, 0⟩] [] [["a".toList]] = .ok ⟨[], 1⟩ :=
    fun fuel => Wordfinder_pruned fuel [⟨0, 0⟩] [] [["a".toList]] "a".toList (by rfl)
      (by rfl) (by rfl)
  rw [hing]
  refine ⟨rfl, by rfl, by rfl, by rfl, by rfl, hroot, fun fuel => by rfl, ?_⟩
  intro race fuel
  have hrun : runRoots (fuel + 1) [] [["a".toList]] (rootPaths [["a".toList]])
      = .ok ⟨[], 1⟩ := by
    have hp : rootPaths [["a".toList]] = [[⟨0, 0⟩]] := by rfl
    rw [hp, runRoots_cons_ok (fuel + 1) [] _ _ [] _ _ (hroot fuel) (runRoots_nil _ _ _)]
    rfl
  rw [main_of_runRoots order race (fuel + 1) _ _ _ hrun (by decide)]
  simp only [readAnswer_nil, Except.bind, RemoveDuplicates_nil order horder]
  rfl

/-- Witness for C13, with lower-casing that leaves the two lines as they are, the map
visited in insertion order and fuel 1. -/
theorem scenario_single_cell_witness :
    main id Race.settled 1 (ingest id ["a".toList, "an".toList] []) [["a".toList]]
      = .ok ⟨1, [], 0, List.replicate 10 []⟩ :=
  (scenario_single_cell id rfl rfl id (fun l => List.Perm.refl l)).2.2.2.2.2.2.2
    Race.settled 0

/-- On a rectangular grid a task whose earlier cells are distinct and in bounds finishes
as soon as the fuel exceeds the number of cells it can still visit; the word list need
not be sorted. -/
theorem Wordfinder_total (b : board) (C : Nat) (hrect : rectangular b C) :
    ∀ (fuel : Nat) (e : path) (last : cell) (d : dictionary), e.Nodup →
    (∀ x ∈ e, inBounds b.length C x) → b.length * C < fuel + e.length →
    ∃ r, Wordfinder fuel (e ++ [last]) d b = .ok r := by
  intro fuel
  induction fuel with
  | zero =>
    intro e last d hnd hin hfuel
    have := nodup_length_le b.length C e hnd hin
    omega
  | succ n ih =>
    intro e last d hnd hin hfuel
    have hlegal := IsLegal_snoc b C hrect e last
    cases hv : (decide (inBounds b.length C last) && IsLegal.loop last e) with
    | false =>
      rw [hv] at hlegal
      exact ⟨_, Wordfinder_illegal n _ d b hlegal⟩
    | true =>
      rw [hv] at hlegal
      have hin0 : ∀ x ∈ e, inBounds b.length (cols b) x :=
        fun x hx => (inBounds_cols b C hrect x).mpr (hin x hx)
      obtain ⟨hnd1, hin1⟩ := legal_path b e last hlegal hnd hin0
      have hin1 : ∀ x ∈ e ++ [last], inBounds b.length C x :=
        fun x hx => (inBounds_cols b C hrect x).mp (hin1 x hx)
      obtain ⟨w, hw⟩ := spell_ok b C hrect (e ++ [last]) hin1
      by_cases hF : (d.Filter w).length = 0
      · exact ⟨_, Wordfinder_pruned n _ d b w hlegal hw hF⟩
      · have hfuel2 : b.length * C < n + (e ++ [last]).length := by
          rw [List.length_append, List.length_singleton]; omega
        obtain ⟨r1, h1⟩ := ih (e ++ [last]) ⟨last.row + -1, last.col + 0⟩ (d.Filter w)
          hnd1 hin1 hfuel2
        obtain ⟨r2, h2⟩ := ih (e ++ [last]) ⟨last.row + 0, last.col + -1⟩ (d.Filter w)
          hnd1 hin1 hfuel2
        obtain ⟨r3, h3⟩ := ih (e ++ [last]) ⟨last.row + 1, last.col + 0⟩ (d.Filter w)
          hnd1 hin1 hfuel2
        obtain ⟨r4, h4⟩ := ih (e ++ [last]) ⟨last.row + 0, last.col + 1⟩ (d.Filter w)
          hnd1 hin1 hfuel2
        refine ⟨⟨(if (d.Filter w).Contains w then [w] else [])
            ++ r1.emitted ++ r2.emitted ++ r3.emitted ++ r4.emitted,
          if 4 ≤ r1.signals + r2.signals + r3.signals + r4.signals then 1 else 0⟩, ?_⟩
        rw [Wordfinder_node n e last d b w hlegal hw hF]
        unfold extend
        rw [h1, h2, h3, h4]
        rfl

theorem runRoots_total (fuel : Nat) (d : dictionary) (b : board) :
    ∀ ps : List path, (∀ p ∈ ps, ∃ r, Wordfinder fuel p d b = .ok r) →
    ∃ t, runRoots fuel d b ps = .ok t := by
  intro ps
  induction ps with
  | nil => intro _; exact ⟨_, runRoots_nil fuel d b⟩
  | cons p rest ih =>
    intro h
    obtain ⟨r, hr⟩ := h p (List.mem_cons_self _ _)
    obtain ⟨rs, hrs⟩ := ih (fun q hq => h q (List.mem_cons_of_mem _ hq))
    exact ⟨_, runRoots_cons_ok fuel d b p rest r rs hr hrs⟩

theorem runRoots_each (fuel : Nat) (d : dictionary) (b : board) :
    ∀ (ps : List path) (t : Report), runRoots fuel d b ps = .ok t →
    ∀ p ∈ ps, ∃ r, Wordfinder fuel p d b = .ok r ∧ ∀ w ∈ r.emitted, w ∈ t.emitted := by
  intro ps
  induction ps with
  | nil => intro t _ p hp; simp at hp
  | cons q rest ih =>
    intro t h p hp
    obtain ⟨r, rs, h1, h2, ht⟩ := runRoots_cons_cases fuel d b q rest t h
    rcases List.mem_cons.mp hp with e | e
    · rw [e]
      refine ⟨r, h1, ?_⟩
      intro w hw
      rw [ht]
      exact List.mem_append_left _ hw
    · obtain ⟨r0, hr0, hsub⟩ := ih rs h2 p e
      refine ⟨r0, hr0, ?_⟩
      intro w hw
      rw [ht]
      exact List.mem_append_right _ (hsub w hw)

/-- What is known of a run of `main` that reports a summary. -/
theorem main_cases (order : List GoString → List GoString) (race : Race) (fuel : Nat)
    (d : dictionary) (b : board) (s : Summary) (h : main order race fuel d b = .ok s) :
    ∃ t seen, runRoots fuel d b (rootPaths b) = .ok t ∧
      rootLoop t.signals ((rootPaths b).length : Int) = true ∧
      readAnswer race t.emitted = .ok seen ∧
      s.workers = (rootPaths b).length ∧
      s.answer = words.RemoveDuplicates order seen ∧ s.count = s.answer.length := by
  unfold main at h
  cases ht : runRoots fuel d b (rootPaths b) with
  | error x => simp [bind, Except.bind, ht] at h
  | ok t =>
    simp only [bind, Except.bind, ht] at h
    cases hloop : rootLoop t.signals ((rootPaths b).length : Int) with
    | false => simp [hloop] at h
    | true =>
      simp only [hloop] at h
      cases hr : readAnswer race t.emitted with
      | error x => simp [hr] at h
      | ok seen =>
        refine ⟨t, seen, rfl, hloop, hr, ?_⟩
        simp only [hr] at h
        cases hl : words.LongestNWords (words.RemoveDuplicates order seen) 10 with
        | error x => simp [hl] at h
        | ok longest =>
          simp only [hl, pure, Except.pure] at h
          simp at h
          rw [← h]
          exact ⟨rfl, rfl, rfl⟩

theorem mem_rootPaths_cell (b : board) (p : path) :
    p ∈ rootPaths b ↔ ∃ c : cell, p = [c] ∧ inBounds b.length b.length c := by
  rw [mem_rootPaths]
  unfold inBounds
  constructor
  · rintro ⟨i, j, hi, hj, e⟩
    exact ⟨⟨(i : Int), (j : Int)⟩, e, by simp only; omega⟩
  · rintro ⟨c, e, h1, h2, h3, h4⟩
    refine ⟨c.row.toNat, c.col.toNat, by omega, by omega, ?_⟩
    rw [e, Int.toNat_of_nonneg h1, Int.toNat_of_nonneg h3]

/-- C14: for every R x C grid `main` can have, one with as many columns as rows (`main`
only builds `size x size` boards), the root level starts exactly one search task per
grid cell, `R * C` in total, each with the single-cell path of its cell (which passes
the legality check) and the full word list, and the completion counter
`workersRemaining` stands at `R * C`. -/
theorem root_fan_out (b : board) (C : Nat) (dict : dictionary) (hrect : rectangular b C)
    (hsquare : b.length = C) :
    (rootPaths b).length = b.length * C ∧ (rootPaths b).Nodup ∧
    (∀ p, p ∈ rootPaths b ↔ ∃ c : cell, p = [c] ∧ inBounds b.length C c) ∧
    (∀ p ∈ rootPaths b, b.IsLegal p = .ok true) ∧
    (∀ order race fuel s, main order race fuel dict b = .ok s →
      s.workers = b.length * C ∧
      ∀ p ∈ rootPaths b, ∃ r, Wordfinder fuel p dict b = .ok r) := by
  refine ⟨by rw [length_rootPaths, hsquare], nodup_rootPaths b, ?_, ?_, ?_⟩
  · intro p
    rw [mem_rootPaths_cell, hsquare]
  · intro p hp
    obtain ⟨c, hc, hin0⟩ := (mem_rootPaths_cell b p).mp hp
    have hin : inBounds b.length C c := by
      rw [← hsquare]; exact hin0
    have hlegal := IsLegal_snoc b C hrect [] c
    rw [List.nil_append] at hlegal
    rw [hc, hlegal]
    simp [hin, IsLegal.loop]
  · intro order race fuel s h
    obtain ⟨t, _, ht, _, _, hw, _, _⟩ := main_cases order race fuel dict b s h
    refine ⟨by rw [hw, length_rootPaths, hsquare], ?_⟩
    intro p hp
    obtain ⟨r, hr, _⟩ := runRoots_each fuel dict b _ t ht p hp
    exact ⟨r, hr⟩

/-- Witness for C14: the square grid `c a / t s` gets `2 * 2` root tasks, one per cell. -/
theorem root_fan_out_witness :
    (rootPaths [["c".toList, "a".toList], ["t".toList, "s".toList]]).length = 2 * 2 ∧
    (rootPaths [["c".toList, "a".toList], ["t".toList, "s".toList]]).Nodup ∧
    ∀ p, p ∈ rootPaths [["c".toList, "a".toList], ["t".toList, "s".toList]] ↔
      ∃ c : cell, p = [c] ∧ inBounds 2 2 c :=
  match root_fan_out [["c".toList, "a".toList], ["t".toList, "s".toList]] 2 []
      (by decide) (by decide) with
  | ⟨h1, h2, h3, _, _⟩ => ⟨h1, h2, h3⟩

theorem runRoots_silent (fuel : Nat) (d : dictionary) (b : board) :
    ∀ ps : List path, (∀ p ∈ ps, Wordfinder fuel p d b = .ok ⟨[], 1⟩) →
    runRoots fuel d b ps = .ok ⟨[], ps.length⟩ := by
  intro ps
  induction ps with
  | nil => intro _; rfl
  | cons p rest ih =>
    intro h
    rw [runRoots_cons_ok fuel d b p rest _ _ (h p (List.mem_cons_self _ _))
      (ih (fun q hq => h q (List.mem_cons_of_mem _ hq)))]
    simp only [List.append_nil, List.length_cons, Except.ok.injEq, Report.mk.injEq, true_and]
    omega

/-- The root task of any cell finishes at once on the empty word list: rejected by
`IsLegal`, or pruned by the empty filter result. -/
theorem Wordfinder_empty_list (b : board) (C : Nat) (hrect : rectangular b C) (c : cell)
    (fuel : Nat) : Wordfinder (fuel + 1) [c] [] b = .ok ⟨[], 1⟩ := by
  have hlegal := IsLegal_snoc b C hrect [] c
  rw [List.nil_append] at hlegal
  cases hv : (decide (inBounds b.length C c) && IsLegal.loop c []) with
  | false =>
    rw [hv] at hlegal
    exact Wordfinder_illegal fuel _ [] b hlegal
  | true =>
    rw [hv] at hlegal
    have hin : inBounds b.length C c := by
      rw [Bool.and_eq_true, decide_eq_true_iff] at hv
      exact hv.1
    obtain ⟨w, hw⟩ := spell_ok b C hrect [c] (by simpa using hin)
    exact Wordfinder_pruned fuel _ [] b w hlegal hw rfl

/-- C16: for every grid `main` can have (as many columns as rows) with at least one cell
and the empty word list, every root task is the task of a grid cell, passes the legality
check, gets an empty filter result and so finishes at the filtering step without starting
a child (fuel 1 is enough: its run consists of that one task); no word is emitted, and
`main` reports the found-word count 0, however its read of `answer` falls. -/
theorem empty_word_list (b : board) (C : Nat) (hrect : rectangular b C)
    (hsquare : b.length = C) (hcell : 1 ≤ b.length) :
    (∀ p ∈ rootPaths b, ∃ c, p = [c] ∧ inBounds b.length C c ∧
      b.IsLegal p = .ok true ∧
      (∃ w, spell b p = .ok w ∧ (dictionary.Filter [] w).length = 0) ∧
      ∀ fuel, Wordfinder (fuel + 1) p [] b = .ok ⟨[], 1⟩ ∧
        explore (fuel + 1) p [] b = .ok (⟨[], 1⟩, [p])) ∧
    (∀ fuel, runRoots (fuel + 1) [] b (rootPaths b) = .ok ⟨[], b.length * C⟩) ∧
    (∀ order : List GoString → List GoString, (∀ l, (order l).Perm l) →
      ∀ race fuel,
        main order race (fuel + 1) [] b =
          .ok ⟨b.length * C, [], 0, List.replicate 10 []⟩) := by
  have hall : ∀ p ∈ rootPaths b, ∀ fuel, Wordfinder (fuel + 1) p [] b = .ok ⟨[], 1⟩ := by
    intro p hp fuel
    obtain ⟨c, hc, _⟩ := (mem_rootPaths_cell b p).mp hp
    rw [hc]
    exact Wordfinder_empty_list b C hrect c fuel
  have hrun : ∀ fuel, runRoots (fuel + 1) [] b (rootPaths b) = .ok ⟨[], b.length * C⟩ := by
    intro fuel
    rw [runRoots_silent (fuel + 1) [] b (rootPaths b) (fun p hp => hall p hp fuel),
      length_rootPaths, hsquare]
  refine ⟨?_, hrun, ?_⟩
  · intro p hp
    obtain ⟨c, hc, hin0⟩ := (mem_rootPaths_cell b p).mp hp
    have hin : inBounds b.length C c := by
      rw [← hsquare]; exact hin0
    have hlegal := IsLegal_snoc b C hrect [] c
    rw [List.nil_append] at hlegal
    have hL : b.IsLegal [c] = .ok true := by
      rw [hlegal]
      simp [hin, IsLegal.loop]
    obtain ⟨w, hw⟩ := spell_ok b C hrect [c] (by simpa using hin)
    rw [hc]
    refine ⟨c, rfl, hin, hL, ⟨w, hw, rfl⟩, ?_⟩
    intro fuel
    refine ⟨Wordfinder_empty_list b C hrect c fuel, ?_⟩
    rw [explore]
    simp [bind, Except.bind, hL, hw, pure, Except.pure, dictionary.Filter, Filter.loop]
  · intro order horder race fuel
    rw [main_of_runRoots order race (fuel + 1) [] b _ (hrun fuel) hcell]
    simp only [readAnswer_nil, Except.bind, RemoveDuplicates_nil order horder, hsquare]
    rfl

/-- Witness for C16: the grid `c a / t s` with the empty word list, the map visited in
insertion order, fuel 1. -/
theorem empty_word_list_witness :
    main id Race.settled 1 [] [["c".toList, "a".toList], ["t".toList, "s".toList]]
      = .ok ⟨2 * 2, [], 0, List.replicate 10 []⟩ :=
  (empty_word_list [["c".toList, "a".toList], ["t".toList, "s".toList]] 2 (by decide)
    (by decide) (by decide)).2.2 id (fun l => List.Perm.refl l) Race.settled 0

theorem rootLoop_iff (b : board) (t : Report) (ht : t.signals = (rootPaths b).length) :
    rootLoop t.signals ((rootPaths b).length : Int) = true ↔ 1 ≤ b.length := by
  rw [ht, length_rootPaths]
  constructor
  · intro h
    rcases Nat.eq_zero_or_pos b.length with h0 | h0
    · rw [h0] at h
      simp [rootLoop] at h
    · exact h0
  · intro h
    have hpos : 1 ≤ b.length * b.length := Nat.mul_pos h h
    exact rootLoop_true _ _ hpos (le_refl _)

/-- C15: for every rectangular grid (`C` columns) and every word list: every task that
finishes, root or child, has sent exactly one completion signal; a task that passes the
legality check after its earlier cells did holds a duplicate-free in-bounds path, of at
most `R * C` cells; so every root task finishes with any fuel above `R * C` (depth at
most the number of cells plus one) and sends one signal; and the root level receives
exactly one signal per root task it started.  `main` leaves its loop `for _ = range done`
exactly when the grid has at least one row: on the grid without rows, which `main` builds
for `-size=0`, no task is started, no signal arrives and `main` blocks for ever. -/
theorem search_terminates (b : board) (C : Nat) (d : dictionary) (hrect : rectangular b C) :
    (∀ fuel p d0 r, Wordfinder fuel p d0 b = .ok r → r.signals = 1) ∧
    (∀ e last, e.Nodup → (∀ x ∈ e, inBounds b.length C x) →
      b.IsLegal (e ++ [last]) = .ok true →
      (e ++ [last]).Nodup ∧ (∀ x ∈ e ++ [last], inBounds b.length C x) ∧
        (e ++ [last]).length ≤ b.length * C) ∧
    (∀ fuel c, b.length * C < fuel → ∃ r, Wordfinder fuel [c] d b = .ok r ∧ r.signals = 1) ∧
    (∀ fuel, b.length * C < fuel →
      ∃ t, runRoots fuel d b (rootPaths b) = .ok t ∧ t.signals = (rootPaths b).length ∧
        (rootLoop t.signals ((rootPaths b).length : Int) = true ↔ 1 ≤ b.length)) ∧
    (∀ order race fuel, main order race fuel d [] = .error .deadlock) := by
  have hroot : ∀ fuel c, b.length * C < fuel → ∃ r, Wordfinder fuel [c] d b = .ok r := by
    intro fuel c hfuel
    exact Wordfinder_total b C hrect fuel [] c d List.nodup_nil (by simp) (by simpa using hfuel)
  have hroots : ∀ fuel, b.length * C < fuel → ∃ t, runRoots fuel d b (rootPaths b) = .ok t := by
    intro fuel hfuel
    apply runRoots_total
    intro p hp
    obtain ⟨c, hc, _⟩ := (mem_rootPaths_cell b p).mp hp
    rw [hc]
    exact hroot fuel c hfuel
  refine ⟨Wordfinder_signals b, ?_, ?_, ?_, fun order race fuel => main_empty_board order race fuel d⟩
  · intro e last hnd hin hL
    have hin0 : ∀ x ∈ e, inBounds b.length (cols b) x :=
      fun x hx => (inBounds_cols b C hrect x).mpr (hin x hx)
    obtain ⟨hnd1, hin1⟩ := legal_path b e last hL hnd hin0
    have hin2 : ∀ x ∈ e ++ [last], inBounds b.length C x :=
      fun x hx => (inBounds_cols b C hrect x).mp (hin1 x hx)
    exact ⟨hnd1, hin2, nodup_length_le b.length C _ hnd1 hin2⟩
  · intro fuel c hfuel
    obtain ⟨r, hr⟩ := hroot fuel c hfuel
    exact ⟨r, hr, Wordfinder_signals b fuel _ d r hr⟩
  · intro fuel hfuel
    obtain ⟨t, ht⟩ := hroots fuel hfuel
    have hsig := runRoots_signals fuel d b _ t ht
    exact ⟨t, ht, hsig, rootLoop_iff b t hsig⟩

/-- Witness for C15: on the board without rows `main` blocks for ever, whatever the word
list (here `["cas", "cat"]`), and no root task was started. -/
theorem search_terminates_witness :
    main id Race.settled 1 ["cas".toList, "cat".toList] [] = .error .deadlock ∧
    ∃ t, runRoots 1 ["cas".toList, "cat".toList] [] (rootPaths []) = .ok t ∧
      t.signals = (rootPaths []).length :=
  ⟨(search_terminates [] 0 ["cas".toList, "cat".toList] (by decide)).2.2.2.2 id Race.settled 1,
   match (search_terminates [] 0 ["cas".toList, "cat".toList] (by decide)).2.2.2.1 1
       (by decide) with
   | ⟨t, h1, h2, _⟩ => ⟨t, h1, h2⟩⟩

/-! ## The tasks of a search and their paths -/

theorem Offset_ok (p q : path) (dr dc : Int) (h : p.Offset dr dc = .ok q) :
    ∃ e last, p = e ++ [last] ∧ q = p ++ [⟨last.row + dr, last.col + dc⟩] := by
  rcases List.eq_nil_or_concat p with hp | ⟨e, last, hp⟩
  · rw [hp] at h; simp [path.Offset] at h
  · rw [List.concat_eq_append] at hp
    refine ⟨e, last, hp, ?_⟩
    rw [hp, Offset_snoc] at h
    rw [← Except.ok.inj h, hp]
    rfl

theorem chain_adjacent_index (q : path) (h : List.Chain' adjacent q) (i : Nat) (x y : cell)
    (hx : q[i]? = some x) (hy : q[i + 1]? = some y) : adjacent x y := by
  rw [List.chain'_iff_get] at h
  obtain ⟨hi, hxe⟩ := List.getElem?_eq_some.mp hx
  obtain ⟨hj, hye⟩ := List.getElem?_eq_some.mp hy
  have := h i (by omega)
  rw [List.get_eq_getElem, List.get_eq_getElem, hxe, hye] at this
  exact this

theorem explore_nil (fuel : Nat) (d : dictionary) (b : board) (x : Report × List path) :
    explore fuel [] d b ≠ .ok x := by
  cases fuel with
  | zero => simp [explore]
  | succ n =>
    rw [explore]
    simp [bind, Except.bind, IsLegal_nil]

theorem explore_illegal (fuel : Nat) (p : path) (d : dictionary) (b : board)
    (hL : b.IsLegal p = .ok false) : explore (fuel + 1) p d b = .ok (⟨[], 1⟩, [p]) := by
  rw [explore]
  simp [bind, Except.bind, hL, pure, Except.pure]

theorem explore_pruned (fuel : Nat) (p : path) (d : dictionary) (b : board) (w : GoString)
    (hL : b.IsLegal p = .ok true) (hw : spell b p = .ok w) (hF : (d.Filter w).length = 0) :
    explore (fuel + 1) p d b = .ok (⟨[], 1⟩, [p]) := by
  rw [explore]
  simp [bind, Except.bind, hL, hw, hF, pure, Except.pure]

theorem explore_node (fuel : Nat) (e : path) (last : cell) (d : dictionary) (b : board)
    (w : GoString) (hL : b.IsLegal (e ++ [last]) = .ok true)
    (hw : spell b (e ++ [last]) = .ok w) (hF : (d.Filter w).length ≠ 0) :
    explore (fuel + 1) (e ++ [last]) d b =
      (explore fuel (extend (e ++ [last]) last (-1) 0) (d.Filter w) b).bind fun r1 =>
      (explore fuel (extend (e ++ [last]) last 0 (-1)) (d.Filter w) b).bind fun r2 =>
      (explore fuel (extend (e ++ [last]) last 1 0) (d.Filter w) b).bind fun r3 =>
      (explore fuel (extend (e ++ [last]) last 0 1) (d.Filter w) b).bind fun r4 =>
      .ok (⟨(if (d.Filter w).Contains w then [w] else [])
              ++ r1.1.emitted ++ r2.1.emitted ++ r3.1.emitted ++ r4.1.emitted,
            if 4 ≤ r1.1.signals + r2.1.signals + r3.1.signals + r4.1.signals
            then 1 else 0⟩,
           (e ++ [last]) :: (r1.2 ++ r2.2 ++ r3.2 ++ r4.2)) := by
  rw [explore]
  simp only [bind, Except.bind, hL, hw, Offset_snoc, pure, Except.pure]
  simp [hF]

/-- The run that keeps track of the tasks returns the report of `Wordfinder`. -/
theorem explore_report (b : board) : ∀ (fuel : Nat) (p : path) (d : dictionary),
    (explore fuel p d b).map Prod.fst = Wordfinder fuel p d b := by
  intro fuel
  induction fuel with
  | zero => intro p d; rfl
  | succ n ih =>
    intro p d
    rcases List.eq_nil_or_concat p with hp | ⟨e, last, hp⟩
    · rw [hp, explore, Wordfinder]
      simp [bind, Except.bind, IsLegal_nil, Except.map]
    · rw [List.concat_eq_append] at hp
      rw [hp]
      cases hL : b.IsLegal (e ++ [last]) with
      | error x =>
        rw [explore, Wordfinder]
        simp [bind, Except.bind, hL, Except.map]
      | ok v =>
        cases v with
        | false =>
          rw [explore_illegal n _ d b hL, Wordfinder_illegal n _ d b hL]
          rfl
        | true =>
          cases hw : spell b (e ++ [last]) with
          | error x =>
            rw [explore, Wordfinder]
            simp [bind, Except.bind, hL, hw, Except.map]
          | ok w =>
            by_cases hF : (d.Filter w).length = 0
            · rw [explore_pruned n _ d b w hL hw hF, Wordfinder_pruned n _ d b w hL hw hF]
              rfl
            · rw [explore_node n e last d b w hL hw hF, Wordfinder_node n e last d b w hL hw hF,
                ← ih (extend (e ++ [last]) last (-1) 0) (d.Filter w),
                ← ih (extend (e ++ [last]) last 0 (-1)) (d.Filter w),
                ← ih (extend (e ++ [last]) last 1 0) (d.Filter w),
                ← ih (extend (e ++ [last]) last 0 1) (d.Filter w)]
              cases explore n (extend (e ++ [last]) last (-1) 0) (d.Filter w) b with
              | error x => rfl
              | ok r1 =>
                cases explore n (extend (e ++ [last]) last 0 (-1)) (d.Filter w) b with
                | error x => rfl
                | ok r2 =>
                  cases explore n (extend (e ++ [last]) last 1 0) (d.Filter w) b with
                  | error x => rfl
                  | ok r3 =>
                    cases explore n (extend (e ++ [last]) last 0 1) (d.Filter w) b with
                    | error x => rfl
                    | ok r4 => rfl

/-- Every way a run of `explore` on a non-empty path can finish. -/
theorem explore_cases (fuel : Nat) (e : path) (last : cell) (d : dictionary) (b : board)
    (x : Report × List path) (h : explore (fuel + 1) (e ++ [last]) d b = .ok x) :
    (b.IsLegal (e ++ [last]) = .ok false ∧ x.2 = [e ++ [last]]) ∨
    (b.IsLegal (e ++ [last]) = .ok true ∧ ∃ w, spell b (e ++ [last]) = .ok w ∧
      (((d.Filter w).length = 0 ∧ x.2 = [e ++ [last]]) ∨
       ((d.Filter w).length ≠ 0 ∧ ∃ r1 r2 r3 r4,
        explore fuel (extend (e ++ [last]) last (-1) 0) (d.Filter w) b = .ok r1 ∧
        explore fuel (extend (e ++ [last]) last 0 (-1)) (d.Filter w) b = .ok r2 ∧
        explore fuel (extend (e ++ [last]) last 1 0) (d.Filter w) b = .ok r3 ∧
        explore fuel (extend (e ++ [last]) last 0 1) (d.Filter w) b = .ok r4 ∧
        x.2 = (e ++ [last]) :: (r1.2 ++ r2.2 ++ r3.2 ++ r4.2)))) := by
  cases hL : b.IsLegal (e ++ [last]) with
  | error y =>
    rw [explore] at h
    simp [bind, Except.bind, hL] at h
  | ok v =>
    cases v with
    | false =>
      rw [explore_illegal fuel _ d b hL] at h
      left
      refine ⟨rfl, ?_⟩
      rw [← Except.ok.inj h]
    | true =>
      right
      refine ⟨rfl, ?_⟩
      cases hw : spell b (e ++ [last]) with
      | error y =>
        rw [explore] at h
        simp [bind, Except.bind, hL, hw] at h
      | ok w =>
        refine ⟨w, rfl, ?_⟩
        by_cases hF : (d.Filter w).length = 0
        · rw [explore_pruned fuel _ d b w hL hw hF] at h
          left
          refine ⟨hF, ?_⟩
          rw [← Except.ok.inj h]
        · right
          refine ⟨hF, ?_⟩
          rw [explore_node fuel e last d b w hL hw hF] at h
          cases h1 : explore fuel (extend (e ++ [last]) last (-1) 0) (d.Filter w) b with
          | error y => rw [h1] at h; simp [Except.bind] at h
          | ok r1 =>
            cases h2 : explore fuel (extend (e ++ [last]) last 0 (-1)) (d.Filter w) b with
            | error y => rw [h1, h2] at h; simp [Except.bind] at h
            | ok r2 =>
              cases h3 : explore fuel (extend (e ++ [last]) last 1 0) (d.Filter w) b with
              | error y => rw [h1, h2, h3] at h; simp [Except.bind] at h
              | ok r3 =>
                cases h4 : explore fuel (extend (e ++ [last]) last 0 1) (d.Filter w) b with
                | error y => rw [h1, h2, h3, h4] at h; simp [Except.bind] at h
                | ok r4 =>
                  rw [h1, h2, h3, h4] at h
                  simp only [Except.bind] at h
                  refine ⟨r1, r2, r3, r4, rfl, rfl, rfl, rfl, ?_⟩
                  rw [← Except.ok.inj h]

/-- Every task of a run holds an extension of the path the run started with, and keeps
each cell an orthogonal neighbour of the one before, if the starting path does. -/
theorem explore_paths (b : board) : ∀ (fuel : Nat) (e : path) (last : cell)
    (d : dictionary) (x : Report × List path), List.Chain' adjacent (e ++ [last]) →
    explore fuel (e ++ [last]) d b = .ok x →
    ∀ q ∈ x.2, (e ++ [last]) <+: q ∧ List.Chain' adjacent q := by
  intro fuel
  induction fuel with
  | zero => intro e last d x _ h; simp [explore] at h
  | succ n ih =>
    intro e last d x hch h
    rcases explore_cases n e last d b x h with
      ⟨_, hx⟩ | ⟨_, w, _, ⟨_, hx⟩ | ⟨_, r1, r2, r3, r4, h1, h2, h3, h4, hx⟩⟩
    · intro q hq
      rw [hx, List.mem_singleton] at hq
      rw [hq]
      exact ⟨List.prefix_refl _, hch⟩
    · intro q hq
      rw [hx, List.mem_singleton] at hq
      rw [hq]
      exact ⟨List.prefix_refl _, hch⟩
    · have hchild : ∀ (dr dc : Int) (r0 : Report × List path),
          adjacent last ⟨last.row + dr, last.col + dc⟩ →
          explore n (extend (e ++ [last]) last dr dc) (d.Filter w) b = .ok r0 →
          ∀ q ∈ r0.2, (e ++ [last]) <+: q ∧ List.Chain' adjacent q := by
        intro dr dc r0 hadj h0 q hq
        have hch2 : List.Chain' adjacent ((e ++ [last]) ++ [⟨last.row + dr, last.col + dc⟩]) := by
          rw [List.chain'_append]
          refine ⟨hch, List.chain'_singleton _, ?_⟩
          intro y hy z hz
          simp at hy hz
          rw [← hy, ← hz]; exact hadj
        obtain ⟨hq1, hq2⟩ := ih (e ++ [last]) _ _ r0 hch2 h0 q hq
        exact ⟨(List.prefix_append _ _).trans hq1, hq2⟩
      obtain ⟨a1, a2, a3, a4⟩ := adjacent_extend last
      intro q hq
      rw [hx] at hq
      simp only [List.mem_cons, List.mem_append] at hq
      rcases hq with hq | ((hq | hq) | hq) | hq
      · rw [hq]; exact ⟨List.prefix_refl _, hch⟩
      · exact hchild _ _ r1 a1 h1 q hq
      · exact hchild _ _ r2 a2 h2 q hq
      · exact hchild _ _ r3 a3 h3 q hq
      · exact hchild _ _ r4 a4 h4 q hq

theorem explore_self (b : board) (fuel : Nat) (p : path) (d : dictionary)
    (x : Report × List path) (h : explore fuel p d b = .ok x) : p ∈ x.2 := by
  cases fuel with
  | zero => simp [explore] at h
  | succ n =>
    rcases List.eq_nil_or_concat p with hp | ⟨e, last, hp⟩
    · rw [hp] at h; exact absurd h (explore_nil _ d b x)
    · rw [List.concat_eq_append] at hp
      rw [hp] at h ⊢
      rcases explore_cases n e last d b x h with
        ⟨_, hx⟩ | ⟨_, w, _, ⟨_, hx⟩ | ⟨_, r1, r2, r3, r4, _, _, _, _, hx⟩⟩
      · rw [hx]; exact List.mem_singleton.mpr rfl
      · rw [hx]; exact List.mem_singleton.mpr rfl
      · rw [hx]; exact List.mem_cons_self _ _

/-- C17: the paths explored by the search are the paths of the tasks `Wordfinder` starts,
listed by `explore`, the run that returns the report of `Wordfinder` together with those
paths.  A task that passes the legality check and is not pruned starts a task for each
of its four `Offset` paths.  In every path of a search started from a single-cell root
path `[c]`, two consecutive cells differ by exactly 1 in the row with equal columns, or
by exactly 1 in the column with equal rows (never both, never neither); `Offset` is
only applied there to paths that passed the legality check.  On any path, `Offset`
returns its input path, every earlier cell unchanged, with one cell added. -/
theorem adjacency_invariant :
    (∀ (b : board) (fuel : Nat) (p : path) (d : dictionary),
      (explore fuel p d b).map Prod.fst = Wordfinder fuel p d b) ∧
    (∀ (b : board) (fuel : Nat) (p : path) (d : dictionary) (w : GoString)
        (x : Report × List path),
      b.IsLegal p = .ok true → spell b p = .ok w → (d.Filter w).length ≠ 0 →
      explore (fuel + 1) p d b = .ok x →
      ∀ q, (p.Offset (-1) 0 = .ok q ∨ p.Offset 1 0 = .ok q ∨ p.Offset 0 (-1) = .ok q ∨
        p.Offset 0 1 = .ok q) → q ∈ x.2) ∧
    (∀ (b : board) (fuel : Nat) (c : cell) (d : dictionary) (x : Report × List path),
      explore fuel [c] d b = .ok x →
      [c] ∈ x.2 ∧
      ∀ q ∈ x.2, [c] <+: q ∧
        ∀ i y z, q[i]? = some y → q[i + 1]? = some z →
          ((z.row = y.row - 1 ∨ z.row = y.row + 1) ∧ z.col = y.col) ∨
          (z.row = y.row ∧ (z.col = y.col - 1 ∨ z.col = y.col + 1))) ∧
    (∀ (p q : path) (dr dc : Int), p.Offset dr dc = .ok q →
      q.length = p.length + 1 ∧ ∀ i, i < p.length → q[i]? = p[i]?) := by
  refine ⟨fun b => explore_report b, ?_, ?_, ?_⟩
  · intro b fuel p d w x hL hw hF h q hq
    rcases List.eq_nil_or_concat p with hp | ⟨e, last, hp⟩
    · rw [hp] at h; exact absurd h (explore_nil _ d b x)
    · rw [List.concat_eq_append] at hp
      rw [hp] at h hL hw hq
      simp only [Offset_snoc, Except.ok.injEq] at hq
      rcases explore_cases fuel e last d b x h with
        ⟨hL2, _⟩ | ⟨_, w1, hw1, ⟨hF1, _⟩ | ⟨_, r1, r2, r3, r4, h1, h2, h3, h4, hx⟩⟩
      · rw [hL] at hL2; simp at hL2
      · rw [hw] at hw1
        rw [← Except.ok.inj hw1] at hF1
        exact absurd hF1 hF
      · have s1 := explore_self b fuel _ _ r1 h1
        have s2 := explore_self b fuel _ _ r2 h2
        have s3 := explore_self b fuel _ _ r3 h3
        have s4 := explore_self b fuel _ _ r4 h4
        rw [hx]
        simp only [List.mem_cons, List.mem_append]
        rcases hq with hq | hq | hq | hq <;> rw [← hq]
        · exact Or.inr (Or.inl (Or.inl (Or.inl s1)))
        · exact Or.inr (Or.inl (Or.inr s3))
        · exact Or.inr (Or.inl (Or.inl (Or.inr s2)))
        · exact Or.inr (Or.inr s4)
  · intro b fuel c d x h
    refine ⟨explore_self b fuel [c] d x h, ?_⟩
    intro q hq
    obtain ⟨hq1, hq2⟩ := explore_paths b fuel [] c d x (List.chain'_singleton c) h q hq
    refine ⟨hq1, ?_⟩
    intro i y z hy hz
    have hadj := chain_adjacent_index q hq2 i y z hy hz
    unfold adjacent at hadj
    omega
  · intro p q dr dc h
    obtain ⟨e, last, _, hq⟩ := Offset_ok p q dr dc h
    rw [hq]
    refine ⟨by simp, ?_⟩
    intro i hi
    exact List.getElem?_append_left hi

/-- Witness for C17: the search from `(0,0)` on the grid `[["a"]]` with the word list
`["a"]` runs the root task and the four tasks of its `Offset` paths. -/
theorem adjacency_invariant_witness :
    explore 2 [⟨0, 0⟩] ["a".toList] [["a".toList]]
      = .ok (⟨["a".toList], 1⟩,
          [[⟨0, 0⟩], [⟨0, 0⟩, ⟨-1, 0⟩], [⟨0, 0⟩, ⟨0, -1⟩], [⟨0, 0⟩, ⟨1, 0⟩],
           [⟨0, 0⟩, ⟨0, 1⟩]]) ∧
    ∀ q ∈ ([[⟨0, 0⟩], [⟨0, 0⟩, ⟨-1, 0⟩], [⟨0, 0⟩, ⟨0, -1⟩], [⟨0, 0⟩, ⟨1, 0⟩],
           [⟨0, 0⟩, ⟨0, 1⟩]] : List path), [⟨0, 0⟩] <+: q ∧
      ∀ i y z, q[i]? = some y → q[i + 1]? = some z →
        ((z.row = y.row - 1 ∨ z.row = y.row + 1) ∧ z.col = y.col) ∨
        (z.row = y.row ∧ (z.col = y.col - 1 ∨ z.col = y.col + 1)) :=
  ⟨by rfl, (adjacency_invariant.2.2.1 [["a".toList]] 2 ⟨0, 0⟩ ["a".toList] _ (by rfl)).2⟩

/-! ## Filter on lists that need not be sorted -/

/-- C18: an unsorted word list loses words.  On the grid `c a / t s` with the word list
`["cas", "xyz", "cts"]`, which is not sorted ascending, the entry `"cts"` is spelled by
the legal path `(0,0), (1,0), (1,1)`, the search finishes, and `"cts"` is never emitted,
nor is it in the answer of `main`, however its read of `answer` falls. -/
theorem unsorted_loses_words :
    ∃ (b : board) (d : dictionary) (q : path) (w : GoString),
      rectangular b 2 ∧ b.length = 2 ∧ ¬ sortedAsc d ∧ w ∈ d ∧
      q.Nodup ∧ (∀ x ∈ q, inBounds 2 2 x) ∧ List.Chain' adjacent q ∧ spell b q = .ok w ∧
      (∃ t, runRoots 5 d b (rootPaths b) = .ok t) ∧
      (∀ fuel t, runRoots fuel d b (rootPaths b) = .ok t → w ∉ t.emitted) ∧
      (∀ order : List GoString → List GoString, (∀ l, (order l).Perm l) →
        ∀ race fuel s, main order race fuel d b = .ok s → w ∉ s.answer) := by
  have h5 : runRoots 5 ["cas".toList, "xyz".toList, "cts".toList]
      [["c".toList, "a".toList], ["t".toList, "s".toList]]
      (rootPaths [["c".toList, "a".toList], ["t".toList, "s".toList]])
      = .ok ⟨["cas".toList], 4⟩ := by rfl
  have hnever : ∀ fuel t, runRoots fuel ["cas".toList, "xyz".toList, "cts".toList]
      [["c".toList, "a".toList], ["t".toList, "s".toList]]
      (rootPaths [["c".toList, "a".toList], ["t".toList, "s".toList]]) = .ok t →
      "cts".toList ∉ t.emitted := by
    intro fuel t ht
    rw [runRoots_fuel_unique _ _ _ _ _ _ _ ht h5]
    decide
  refine ⟨[["c".toList, "a".toList], ["t".toList, "s".toList]],
    ["cas".toList, "xyz".toList, "cts".toList], [⟨0, 0⟩, ⟨1, 0⟩, ⟨1, 1⟩], "cts".toList,
    by decide, by decide, by decide, by decide, by decide, by decide, ?_, by rfl,
    ⟨_, h5⟩, hnever, ?_⟩
  · exact List.chain'_cons.mpr ⟨by decide, List.chain'_cons.mpr ⟨by decide,
      List.chain'_singleton _⟩⟩
  · intro order horder race fuel s hs
    obtain ⟨t, seen, ht, _, hseen, _, hans, _⟩ := main_cases order race fuel _ _ s hs
    rw [hans, mem_RemoveDuplicates order horder]
    exact fun hmem => hnever fuel t ht (readAnswer_mem race _ _ hseen _ hmem)

theorem Filter_loop_kept (pfx : GoString) : ∀ (l : List GoString) (out : dictionary),
    out ≠ [] →
    Filter.loop pfx l out =
      out ++ (l.takeWhile (fun w => !decide (blocks pfx w))).filter
        (fun w => decide (hasPrefix pfx w)) := by
  intro l
  induction l with
  | nil => intro out _; simp [Filter.loop]
  | cons w rest ih =>
    intro out hout
    unfold Filter.loop
    by_cases hlen : w.length ≥ pfx.length
    · rw [if_pos hlen]
      by_cases hm : w.take pfx.length = pfx
      · rw [if_pos hm]
        have hm2 : hasPrefix pfx w := hm
        have hb : ¬ blocks pfx w := fun h => h.2 hm2
        rw [ih (out ++ [w]) (by simp)]
        simp [List.takeWhile_cons, hb, List.filter_cons, hm2]
      · rw [if_neg hm]
        have hm2 : ¬ hasPrefix pfx w := hm
        have hb : blocks pfx w := ⟨hlen, hm2⟩
        have ho : out.length > 0 := List.length_pos.mpr hout
        rw [if_pos ho]
        simp [List.takeWhile_cons, hb]
    · rw [if_neg hlen]
      have hm2 : ¬ hasPrefix pfx w := by
        intro h
        unfold hasPrefix at h
        apply hlen
        have := congrArg List.length h
        simp at this
        omega
      have hb : ¬ blocks pfx w := fun h => hlen h.1
      rw [ih out hout]
      simp [List.takeWhile_cons, hb, List.filter_cons, hm2]

theorem Filter_loop_start (pfx : GoString) : ∀ (l : List GoString),
    Filter.loop pfx l [] =
      ((l.dropWhile (fun w => !decide (hasPrefix pfx w))).takeWhile
        (fun w => !decide (blocks pfx w))).filter (fun w => decide (hasPrefix pfx w)) := by
  intro l
  induction l with
  | nil => simp [Filter.loop]
  | cons w rest ih =>
    unfold Filter.loop
    by_cases hm : hasPrefix pfx w
    · have hlen : w.length ≥ pfx.length := by
        unfold hasPrefix at hm
        have := congrArg List.length hm
        simp at this
        omega
      have hm2 : w.take pfx.length = pfx := hm
      have hb : ¬ blocks pfx w := fun h => h.2 hm
      rw [if_pos hlen, if_pos hm2, Filter_loop_kept pfx rest ([] ++ [w]) (by simp)]
      simp [List.dropWhile_cons, hm, List.takeWhile_cons, hb, List.filter_cons]
    · have hm2 : ¬ w.take pfx.length = pfx := hm
      have hstep : (if w.length ≥ pfx.length then
            if w.take pfx.length = pfx then Filter.loop pfx rest ([] ++ [w])
            else if ([] : dictionary).length > 0 then []
            else Filter.loop pfx rest []
          else Filter.loop pfx rest []) = Filter.loop pfx rest [] := by
        by_cases hlen : w.length ≥ pfx.length
        · rw [if_pos hlen, if_neg hm2, if_neg (by simp)]
        · rw [if_neg hlen]
      rw [hstep, ih]
      simp [List.dropWhile_cons, hm]

theorem dropWhile_skip {α : Type} (f : α → Bool) : ∀ (A rest : List α),
    (∀ w ∈ A, f w = true) → (A ++ rest).dropWhile f = rest.dropWhile f := by
  intro A
  induction A with
  | nil => intro rest _; rfl
  | cons a A ih =>
    intro rest h
    rw [List.cons_append, List.dropWhile_cons, if_pos (h a (List.mem_cons_self _ _))]
    exact ih rest (fun w hw => h w (List.mem_cons_of_mem _ hw))

theorem takeWhile_stop {α : Type} (f : α → Bool) : ∀ (M : List α) (x : α) (B : List α),
    (∀ w ∈ M, f w = true) → f x = false → (M ++ x :: B).takeWhile f = M := by
  intro M
  induction M with
  | nil =>
    intro x B _ hx
    rw [List.nil_append, List.takeWhile_cons, hx]
    rfl
  | cons a M ih =>
    intro x B h hx
    rw [List.cons_append, List.takeWhile_cons, if_pos (h a (List.mem_cons_self _ _))]
    rw [ih x B (fun w hw => h w (List.mem_cons_of_mem _ hw)) hx]

/-- What `Filter` returns on any list: the entries before the first match are dropped,
the scan stops at the first later entry that is at least as long as the prefix and does
not start with it, and the matches in between are kept. -/
theorem Filter_eq_segment (d : dictionary) (pfx : GoString) :
    d.Filter pfx =
      ((d.dropWhile (fun w => !decide (hasPrefix pfx w))).takeWhile
        (fun w => !decide (blocks pfx w))).filter (fun w => decide (hasPrefix pfx w)) :=
  Filter_loop_start pfx d

/-- C19, as the code has it: on every list (sorted or not), once an entry that is at
least as long as the prefix and whose leading `len(prefix)` characters differ from it
follows at least one match, `Filter` returns and no later entry is included; entries
shorter than the prefix are skipped without ending the scan.  So the result is made of
the matches of one contiguous segment of the list: from the first match up to the first
such entry after it. -/
theorem Filter_early_exit (d : dictionary) (pfx : GoString) :
    (∀ (A M B : List GoString) (m x : GoString), d = A ++ m :: M ++ x :: B →
      (∀ w ∈ A, ¬ hasPrefix pfx w) → hasPrefix pfx m →
      (∀ w ∈ M, hasPrefix pfx w ∨ w.length < pfx.length) →
      pfx.length ≤ x.length → ¬ hasPrefix pfx x →
      d.Filter pfx = m :: M.filter (fun w => decide (hasPrefix pfx w))) ∧
    d.Filter pfx =
      ((d.dropWhile (fun w => !decide (hasPrefix pfx w))).takeWhile
        (fun w => !decide (blocks pfx w))).filter (fun w => decide (hasPrefix pfx w)) := by
  refine ⟨?_, Filter_eq_segment d pfx⟩
  intro A M B m x hd hA hm hM hxl hx
  have hmb : ¬ blocks pfx m := fun h => h.2 hm
  have hMb : ∀ w ∈ M, (!decide (blocks pfx w)) = true := by
    intro w hw
    have : ¬ blocks pfx w := by
      intro hb
      rcases hM w hw with h | h
      · exact hb.2 h
      · have := hb.1; omega
    simp [this]
  have hxb : (!decide (blocks pfx x)) = false := by
    have : blocks pfx x := ⟨hxl, hx⟩
    simp [this]
  rw [Filter_eq_segment, hd, List.append_assoc,
    dropWhile_skip _ A _ (fun w hw => by simp [hA w hw]), List.cons_append,
    List.dropWhile_cons, if_neg (by simp [hm]), List.takeWhile_cons,
    if_pos (by simp [hmb]), takeWhile_stop _ M x B hMb hxb, List.filter_cons,
    if_pos (by simp [hm])]

/-- Witness for C19: the list `["xy", "abc", "a", "abd", "b", "abe"]` and the prefix
`"ab"`: the scan passes the short entry `"a"` and stops at `"bc"`. -/
theorem Filter_early_exit_witness :
    dictionary.Filter
      ["xy".toList, "abc".toList, "a".toList, "abd".toList, "bc".toList, "abe".toList]
      "ab".toList
    = "abc".toList ::
        (["a".toList, "abd".toList] : List GoString).filter
          (fun w => decide (hasPrefix "ab".toList w)) :=
  (Filter_early_exit
    ["xy".toList, "abc".toList, "a".toList, "abd".toList, "bc".toList, "abe".toList]
    "ab".toList).1 ["xy".toList] ["a".toList, "abd".toList] ["abe".toList] "abc".toList
    "bc".toList rfl (by decide) (by decide) (by decide) (by decide) (by decide)

/-- Counterexample to C19 as stated: in `["abc", "a", "abd"]` with the prefix `"ab"` the
entry `"a"` does not start with the prefix and follows the match `"abc"`, yet `Filter`
goes on and includes the later entry `"abd"`; the result `["abc", "abd"]` is not a
contiguous run of the list. -/
theorem Filter_early_exit_counterexample :
    dictionary.Filter ["abc".toList, "a".toList, "abd".toList] "ab".toList
      = ["abc".toList, "abd".toList] ∧
    hasPrefix "ab".toList "abc".toList ∧ ¬ hasPrefix "ab".toList "a".toList ∧
    ¬ List.IsInfix ["abc".toList, "abd".toList] ["abc".toList, "a".toList, "abd".toList] :=
  ⟨by decide, by decide, by decide, by decide⟩

/-! ## Incremental narrowing -/

theorem hasPrefix_of_prefix (p q w : GoString) (hpq : p <+: q) (hq : hasPrefix q w) :
    hasPrefix p w := by
  unfold hasPrefix at hq ⊢
  obtain ⟨t, ht⟩ := hpq
  have h1 : (w.take q.length).take p.length = q.take p.length := by rw [hq]
  rw [List.take_take, ← ht, List.length_append] at h1
  rw [Nat.min_eq_left (by omega)] at h1
  rw [h1]
  simp

theorem Filter_Filter (d : dictionary) (p q : GoString) (hs : sortedAsc d) (hpq : p <+: q) :
    (d.Filter p).Filter q = d.Filter q := by
  rw [Filter_eq_filter (d.Filter p) q (sortedAsc_Filter d p hs), Filter_eq_filter d p hs,
    Filter_eq_filter d q hs, List.filter_filter]
  apply List.filter_congr
  intro w _
  by_cases hq : hasPrefix q w
  · simp [hq, hasPrefix_of_prefix p q w hpq hq]
  · simp [hq]

theorem subdictAfter_eq (b : board) : ∀ (t : List cell) (p : path) (d : dictionary)
    (w : GoString), sortedAsc d → spell b (p ++ t) = .ok w →
    subdictAfter b p d t = .ok (d.Filter w) := by
  intro t
  induction t with
  | nil =>
    intro p d w _ h
    rw [List.append_nil] at h
    simp [subdictAfter, h]
  | cons c t ih =>
    intro p d w hs h
    obtain ⟨w0, s0, h0, _, hw⟩ := (spell_append b p (c :: t) w).mp h
    have hassoc : p ++ c :: t = (p ++ [c]) ++ t := by simp
    rw [hassoc] at h
    unfold subdictAfter
    rw [h0]
    simp only
    rw [ih (p ++ [c]) (d.Filter w0) w (sortedAsc_Filter d w0 hs) h,
      Filter_Filter d w0 w hs ⟨s0, hw.symm⟩]

/-- C20: on a word list sorted ascending lexicographically, filtering by `p` and then by
`q`, where `p` is a prefix of `q`, gives the same as filtering by `q` from scratch; so the
`subdict` of the task reached from a task with path `p0` and the sorted list `d` along
the cells `t` is the filter of `d` by the string the path `p0 ++ t` spells. -/
theorem Filter_narrowing (d : dictionary) (p q : GoString) (hs : sortedAsc d)
    (hpq : p <+: q) :
    (d.Filter p).Filter q = d.Filter q ∧
    ∀ (b : board) (p0 : path) (t : List cell) (w : GoString),
      spell b (p0 ++ t) = .ok w → subdictAfter b p0 d t = .ok (d.Filter w) :=
  ⟨Filter_Filter d p q hs hpq, fun b p0 t w h => subdictAfter_eq b t p0 d w hs h⟩

/-- Witness for C20: the sorted list `["ab", "cas", "cat", "cat", "dog"]` with the
prefixes `"c"` and `"cat"`. -/
theorem Filter_narrowing_witness :
    dictionary.Filter (dictionary.Filter
        ["ab".toList, "cas".toList, "cat".toList, "cat".toList, "dog".toList] "c".toList)
        "cat".toList
      = dictionary.Filter
        ["ab".toList, "cas".toList, "cat".toList, "cat".toList, "dog".toList] "cat".toList :=
  (Filter_narrowing ["ab".toList, "cas".toList, "cat".toList, "cat".toList, "dog".toList]
    "c".toList "cat".toList (by decide) ⟨"at".toList, rfl⟩).1

end Goggle
